import Mathlib

/-!
# Verification of the mercury-ai provider abstraction layer

A shallow embedding, in Lean 4, of the provider abstraction layer of the
`mercury_agent` Python package: the canonical message/chunk model
(`provider.py`), the three vendor adapters (`ollama_client.py`,
`anthropic_client.py`, `openai_client.py`), their streaming decoders and
error classification, the retry/backoff loop, and the tool-calling
orchestration loop shared by `cli.py` and `web.py`.

Machine-level conventions used throughout:
* Python dicts with a fixed key set become Lean structures; a key that a
  reader accesses with `dict.get(k, default)` and that a writer may omit
  becomes an `Option` field (absent = `none`).
* Python JSON values (as produced by `json.loads`) become the inductive
  `JVal`.  Numbers are modelled as integers only: every JSON number this
  codebase manipulates (token counts, tool arguments in the spec's
  examples) is integral.
* Wall-clock fields (`total_duration`, `eval_duration`, ...) are measured
  with `time.time()` in the source and are not modelled; the claims under
  verification only concern token-usage counts.
-/

/-- JSON values, modelling the result of Python's `json.loads` restricted to
the JSON fragment this codebase exercises (null, booleans, integer numbers,
strings, arrays, objects). -/
inductive JVal where
  | null : JVal
  | bool (b : Bool) : JVal
  | num (n : Int) : JVal
  | str (s : String) : JVal
  | arr (xs : List JVal) : JVal
  | obj (fields : List (String × JVal)) : JVal
  deriving Repr

mutual

/-- Structural equality test for `JVal` (Python `==` on parsed JSON values). -/
def JVal.beq : JVal → JVal → Bool
  | .null, .null => true
  | .bool a, .bool b => a == b
  | .num a, .num b => a == b
  | .str a, .str b => a == b
  | .arr a, .arr b => JVal.beqList a b
  | .obj a, .obj b => JVal.beqFields a b
  | _, _ => false

def JVal.beqList : List JVal → List JVal → Bool
  | [], [] => true
  | x :: xs, y :: ys => JVal.beq x y && JVal.beqList xs ys
  | _, _ => false

def JVal.beqFields : List (String × JVal) → List (String × JVal) → Bool
  | [], [] => true
  | (k, v) :: xs, (l, w) :: ys => k == l && JVal.beq v w && JVal.beqFields xs ys
  | _, _ => false

end

instance : BEq JVal := ⟨JVal.beq⟩

mutual

theorem JVal.beq_iff : ∀ a b : JVal, JVal.beq a b = true ↔ a = b
  | .null, .null => by simp [JVal.beq]
  | .null, .bool _ | .null, .num _ | .null, .str _ | .null, .arr _ | .null, .obj _ => by
      simp [JVal.beq]
  | .bool _, .null | .bool _, .num _ | .bool _, .str _ | .bool _, .arr _ | .bool _, .obj _ => by
      simp [JVal.beq]
  | .bool a, .bool b => by simp [JVal.beq]
  | .num _, .null | .num _, .bool _ | .num _, .str _ | .num _, .arr _ | .num _, .obj _ => by
      simp [JVal.beq]
  | .num a, .num b => by simp [JVal.beq]
  | .str _, .null | .str _, .bool _ | .str _, .num _ | .str _, .arr _ | .str _, .obj _ => by
      simp [JVal.beq]
  | .str a, .str b => by simp [JVal.beq]
  | .arr _, .null | .arr _, .bool _ | .arr _, .num _ | .arr _, .str _ | .arr _, .obj _ => by
      simp [JVal.beq]
  | .arr a, .arr b => by
      simp only [JVal.beq, JVal.beqList_iff a b, JVal.arr.injEq]
  | .obj _, .null | .obj _, .bool _ | .obj _, .num _ | .obj _, .str _ | .obj _, .arr _ => by
      simp [JVal.beq]
  | .obj a, .obj b => by
      simp only [JVal.beq, JVal.beqFields_iff a b, JVal.obj.injEq]

theorem JVal.beqList_iff : ∀ a b : List JVal, JVal.beqList a b = true ↔ a = b
  | [], [] => by simp [JVal.beqList]
  | [], _ :: _ => by simp [JVal.beqList]
  | _ :: _, [] => by simp [JVal.beqList]
  | x :: xs, y :: ys => by
      simp only [JVal.beqList, Bool.and_eq_true, JVal.beq_iff x y,
        JVal.beqList_iff xs ys, List.cons.injEq]

theorem JVal.beqFields_iff :
    ∀ a b : List (String × JVal), JVal.beqFields a b = true ↔ a = b
  | [], [] => by simp [JVal.beqFields]
  | [], _ :: _ => by simp [JVal.beqFields]
  | _ :: _, [] => by simp [JVal.beqFields]
  | (k, v) :: xs, (l, w) :: ys => by
      simp only [JVal.beqFields, Bool.and_eq_true, beq_iff_eq, JVal.beq_iff v w,
        JVal.beqFields_iff xs ys, List.cons.injEq, Prod.mk.injEq, and_assoc]

end

instance : DecidableEq JVal := fun a b =>
  decidable_of_iff (JVal.beq a b = true) (JVal.beq_iff a b)

/-! ## A model of Python `json.loads` / `json.dumps`

`loads` is a fuel-indexed recursive-descent parser returning `none` on any
input Python's `json.loads` would reject (within the modelled fragment:
`\uXXXX` escapes and non-integer numbers are not modelled — this codebase
never produces them in the inputs under verification). -/

/-- Whether a character is JSON whitespace (space, tab, newline, carriage
return). -/
def isJsonWs (c : Char) : Bool :=
  c == '\t' || c == '\n' || c == '\r' || c == ' '

/-- Skip JSON whitespace. -/
def skipWs (cs : List Char) : List Char :=
  cs.dropWhile isJsonWs

/-- Decode a single-character JSON escape (the character after a backslash). -/
def escChar : Char → Option Char
  | 'n' => some '\n'
  | 't' => some '\t'
  | 'r' => some '\r'
  | 'b' => some (Char.ofNat 8)
  | 'f' => some (Char.ofNat 12)
  | '"' => some '"'
  | '\\' => some '\\'
  | '/' => some '/'
  | _ => none

/-- Parse the body of a JSON string (input starts after the opening quote);
returns the decoded characters and the input after the closing quote. -/
def parseStrChars : List Char → Option (List Char × List Char)
  | [] => none
  | c :: rest =>
      if c = '"' then some ([], rest)
      else if c = '\\' then
        match rest with
        | [] => none
        | e :: rest' => do
            let ec ← escChar e
            let (s, r) ← parseStrChars rest'
            some (ec :: s, r)
      else do
        let (s, r) ← parseStrChars rest
        some (c :: s, r)

/-- Numeric value of one decimal digit character. -/
def digitVal (c : Char) : Nat := c.toNat - 48

/-- Numeric value of a digit run, accumulator style. -/
def natOfDigits : List Char → Nat → Nat
  | [], acc => acc
  | d :: ds, acc => natOfDigits ds (10 * acc + digitVal d)

mutual

/-- Fuel-indexed JSON value parse; returns the value and the remaining input. -/
def parseJ : Nat → List Char → Option (JVal × List Char)
  | 0, _ => none
  | fuel + 1, cs =>
      match skipWs cs with
      | [] => none
      | c :: rest =>
          if c = 'n' then
            match rest with
            | 'u' :: 'l' :: 'l' :: r => some (.null, r)
            | _ => none
          else if c = 't' then
            match rest with
            | 'r' :: 'u' :: 'e' :: r => some (.bool true, r)
            | _ => none
          else if c = 'f' then
            match rest with
            | 'a' :: 'l' :: 's' :: 'e' :: r => some (.bool false, r)
            | _ => none
          else if c = '"' then do
            let (s, r) ← parseStrChars rest
            some (.str (String.mk s), r)
          else if c = '[' then do
            let (xs, r) ← parseArrItems fuel rest
            some (.arr xs, r)
          else if c = '\x7b' then do
            let (fs, r) ← parseObjItems fuel rest
            some (.obj fs, r)
          else if c = '-' then
            match rest.takeWhile Char.isDigit with
            | [] => none
            | ds =>
                some (.num (-(natOfDigits ds 0 : Int)),
                  rest.dropWhile Char.isDigit)
          else if c.isDigit then
            some (.num (natOfDigits ((c :: rest).takeWhile Char.isDigit) 0 : Int),
              (c :: rest).dropWhile Char.isDigit)
          else none

/-- Parse array items (input starts after `[`). -/
def parseArrItems : Nat → List Char → Option (List JVal × List Char)
  | 0, _ => none
  | fuel + 1, cs =>
      match skipWs cs with
      | [] => none
      | c :: rest =>
          if c = ']' then some ([], rest)
          else do
            let (v, r) ← parseJ fuel (c :: rest)
            let (vs, r') ← parseArrTail fuel r
            some (v :: vs, r')

/-- Parse `, item ... ]` after an array item. -/
def parseArrTail : Nat → List Char → Option (List JVal × List Char)
  | 0, _ => none
  | fuel + 1, cs =>
      match skipWs cs with
      | [] => none
      | c :: rest =>
          if c = ']' then some ([], rest)
          else if c = ',' then do
            let (v, r) ← parseJ fuel rest
            let (vs, r') ← parseArrTail fuel r
            some (v :: vs, r')
          else none

/-- Parse object members (input starts after the opening brace). -/
def parseObjItems : Nat → List Char → Option (List (String × JVal) × List Char)
  | 0, _ => none
  | fuel + 1, cs =>
      match skipWs cs with
      | [] => none
      | c :: rest =>
          if c = '\x7d' then some ([], rest)
          else do
            let (kv, r) ← parseObjPair fuel (c :: rest)
            let (kvs, r') ← parseObjTail fuel r
            some (kv :: kvs, r')

/-- Parse one `"key": value` member. -/
def parseObjPair : Nat → List Char → Option ((String × JVal) × List Char)
  | 0, _ => none
  | fuel + 1, cs =>
      match skipWs cs with
      | [] => none
      | c :: rest =>
          if c = '"' then do
            let (k, r) ← parseStrChars rest
            match skipWs r with
            | [] => none
            | c2 :: r' =>
                if c2 = ':' then do
                  let (v, r2) ← parseJ fuel r'
                  some ((String.mk k, v), r2)
                else none
          else none

/-- Parse the members after the first one, up to the closing brace. -/
def parseObjTail : Nat → List Char → Option (List (String × JVal) × List Char)
  | 0, _ => none
  | fuel + 1, cs =>
      match skipWs cs with
      | [] => none
      | c :: rest =>
          if c = '\x7d' then some ([], rest)
          else if c = ',' then do
            let (kv, r) ← parseObjPair fuel rest
            let (kvs, r') ← parseObjTail fuel r
            some (kv :: kvs, r')
          else none

end

/-- Model of Python `json.loads`: parse one JSON document, rejecting trailing
garbage; `none` models a raised `json.JSONDecodeError`. -/
def loads (s : String) : Option JVal :=
  match parseJ (s.length + 1) s.toList with
  | some (v, rest) => if skipWs rest = [] then some v else none
  | none => none

/-- Escape one character for a JSON string literal
(Python `json.dumps` without the `ensure_ascii` transliteration, which this
codebase never relies on). -/
def escapeChar (c : Char) : List Char :=
  if c = '"' then ['\\', '"']
  else if c = '\\' then ['\\', '\\']
  else if c = '\n' then ['\\', 'n']
  else if c = '\t' then ['\\', 't']
  else if c = '\r' then ['\\', 'r']
  else [c]

/-- Escaped body of a JSON string literal. -/
def escStrChars : List Char → List Char
  | [] => []
  | c :: cs => escapeChar c ++ escStrChars cs

/-- The tail of a `", "`-separated concatenation. -/
def sepTail : List (List Char) → List Char
  | [] => []
  | x :: xs => ',' :: ' ' :: (x ++ sepTail xs)

/-- `", ".join(...)` at character level. -/
def sepJoin : List (List Char) → List Char
  | [] => []
  | x :: xs => x ++ sepTail xs

mutual

/-- Model of Python `json.dumps` with its default separators `", "` /
`": "`, producing the characters of the serialization. -/
def dumpsL : JVal → List Char
  | .null => "null".toList
  | .bool true => "true".toList
  | .bool false => "false".toList
  | .num n => (toString n).toList
  | .str s => '"' :: (escStrChars s.toList ++ ['"'])
  | .arr xs => '[' :: (sepJoin (dumpsLArr xs) ++ [']'])
  | .obj fs => '\x7b' :: (sepJoin (dumpsLObj fs) ++ ['\x7d'])

def dumpsLArr : List JVal → List (List Char)
  | [] => []
  | x :: xs => dumpsL x :: dumpsLArr xs

def dumpsLObj : List (String × JVal) → List (List Char)
  | [] => []
  | (k, v) :: fs =>
      ('"' :: (escStrChars k.toList ++ ('"' :: ':' :: ' ' :: dumpsL v)))
        :: dumpsLObj fs

end

/-- Model of Python `json.dumps`. -/
def dumps (v : JVal) : String := String.mk (dumpsL v)

example : loads "\x7b\"a\":1,\"b\":2\x7d" = some (.obj [("a", .num 1), ("b", .num 2)]) := by
  decide

example : loads "\x7bnot json" = none := by decide

example : loads (dumps (.obj [("a", .num 1), ("b", .num 2)])) =
    some (.obj [("a", .num 1), ("b", .num 2)]) := by decide

/-! ## Canonical message / chunk model (`provider.py`)

History messages are Python dicts with keys drawn from
`role`, `content`, `tool_calls`, `tool_use_id` (written by the
`BaseProvider` mutators and by `cli.py`/`web.py`), plus `tool_call_id`,
a key that `OpenAIProvider._convert_messages` reads but no writer in the
repository ever sets.  Optional fields model keys that may be absent. -/

/-- A canonical tool call, `{"function": {"name", "arguments"}, "id"}` in the
source, with the `dict.get` defaults already applied (`name`/`id` default to
`""`, `arguments` to `{}`). -/
structure ToolCall where
  name : String
  arguments : JVal
  id : String
  deriving Repr, DecidableEq

/-- A canonical history message (one element of `BaseProvider.history`, or of
the `messages` list built by `cli.py` / `web.py`). -/
structure HMsg where
  role : String
  content : Option String := none
  tool_calls : Option (List ToolCall) := none
  tool_use_id : Option String := none
  tool_call_id : Option String := none
  deriving Repr, DecidableEq

/-- A canonical chunk, the normalized unit all three providers yield.
Usage keys absent from a yielded dict are modelled as `0` (exactly how every
consumer reads them, via `dict.get(key, 0)`); wall-clock duration fields are
not modelled. -/
structure Chunk where
  content : String := ""
  tool_calls : List ToolCall := []
  done : Bool := false
  prompt_eval_count : Nat := 0
  eval_count : Nat := 0
  cache_read_input_tokens : Nat := 0
  cache_creation_input_tokens : Nat := 0
  deriving Repr, DecidableEq

/-! ### `BaseProvider` history mutators (`provider.py` lines 79-99) -/

/-- `BaseProvider.add_message`: appends `{"role": role, "content": content}`. -/
def addMessageMsg (role content : String) : HMsg :=
  { role := role, content := some content }

/-- `BaseProvider.add_tool_call`: appends
`{"role": "assistant", "tool_calls": tool_calls}`. -/
def addToolCallMsg (tcs : List ToolCall) : HMsg :=
  { role := "assistant", tool_calls := some tcs }

/-- `BaseProvider.add_tool_result`: appends
`{"role": "tool", "content": content, "tool_use_id": tool_use_id}`. -/
def addToolResultMsg (content toolUseId : String) : HMsg :=
  { role := "tool", content := some content, tool_use_id := some toolUseId }

/-- `BaseProvider._estimate_tokens`: `sum(len(msg.get("content", "")) // 4)`.
A message without a `content` key contributes `len("") // 4 = 0`. -/
def estimateTokens (history : List HMsg) : Nat :=
  history.foldl (fun total msg => total + (msg.content.getD "").length / 4) 0

/-- `BaseProvider.trim_history`:
`while self._estimate_tokens() > max_tokens and len(self.history) > 1:
self.history.pop(0)`. -/
def trimHistory (maxTokens : Nat) : List HMsg → List HMsg
  | [] => []
  | [m] => [m]
  | m :: ms =>
      if estimateTokens (m :: ms) > maxTokens then trimHistory maxTokens ms
      else m :: ms

/-- The history mutators of `BaseProvider`, as abstract operations
(`clear_history` is `self.history.clear()`). -/
inductive HistOp where
  | addMessage (role content : String)
  | addToolCall (tcs : List ToolCall)
  | addToolResult (content toolUseId : String)
  | trimHistory (maxTokens : Nat)
  | clearHistory

/-- Effect of one `BaseProvider` mutator on the history list. -/
def applyHistOp (h : List HMsg) : HistOp → List HMsg
  | .addMessage role content => h ++ [addMessageMsg role content]
  | .addToolCall tcs => h ++ [addToolCallMsg tcs]
  | .addToolResult content toolUseId => h ++ [addToolResultMsg content toolUseId]
  | .trimHistory maxTokens => trimHistory maxTokens h
  | .clearHistory => []

/-- Running a sequence of mutators from the initial empty history
(`self.history = []` in `BaseProvider.__init__`). -/
def runHistOps (ops : List HistOp) : List HMsg :=
  ops.foldl applyHistOp []

/-- The messages an operation appends (empty for `trim_history` and
`clear_history`). -/
def appendedBy : HistOp → List HMsg
  | .addMessage role content => [addMessageMsg role content]
  | .addToolCall tcs => [addToolCallMsg tcs]
  | .addToolResult content toolUseId => [addToolResultMsg content toolUseId]
  | .trimHistory _ => []
  | .clearHistory => []

/-- All messages ever appended by a sequence of mutators, in append order. -/
def allAppended (ops : List HistOp) : List HMsg :=
  (ops.map appendedBy).flatten

/-! ## SSE line filtering (shared shape of `AnthropicProvider._stream` lines
123-135 and `OpenAIProvider._stream` lines 85-97)

Both SSE decoders run the identical per-line prelude: skip empty lines, skip
lines without the `"data: "` prefix, stop at the `[DONE]` sentinel, and skip
payloads `json.loads` rejects. -/

/-- One pass of the per-line SSE prelude: the surviving `(raw, parsed)` data
payloads, in order, up to (and not including) a `[DONE]` sentinel. -/
def sseData : List String → List (String × JVal)
  | [] => []
  | l :: ls =>
      if l = "" then sseData ls
      else if ¬ l.startsWith "data: " then sseData ls
      else
        let raw := l.drop 6
        if raw.trim = "[DONE]" then []
        else
          match loads raw with
          | none => sseData ls
          | some j => (raw, j) :: sseData ls

/-- Field lookup on a parsed JSON object, modelling `dict.get` (first match;
`none` when the value is not an object or the key is absent). -/
def jget (j : JVal) (key : String) : Option JVal :=
  match j with
  | .obj fields => (fields.find? (fun kv => kv.1 = key)).map (·.2)
  | _ => none

/-- `dict.get(key, "")` for string-valued fields (non-string values collapse
to the default, which no well-formed vendor event triggers). -/
def jgetStr (j : JVal) (key : String) : String :=
  match jget j key with
  | some (.str s) => s
  | _ => ""

/-- `dict.get(key, 0)` for integer token counts (clamped to `Nat`: vendor
token counts are non-negative). -/
def jgetNat (j : JVal) (key : String) : Nat :=
  match jget j key with
  | some (.num n) => n.toNat
  | _ => 0

/-! ## Anthropic streaming decoder (`AnthropicProvider._stream`, lines
110-214)

The decoder dispatches on `event.get("type", "")`.  `AEvent` is that
dispatch, reified: each constructor carries exactly the fields the handler
of that event type reads. -/

/-- One parsed Anthropic SSE event, after the `event.get("type", "")`
dispatch of `AnthropicProvider._stream`. -/
inductive AEvent where
  /-- `type == "error"`: the vendor error type and message. -/
  | error (errType errMsg : String)
  /-- `type == "message_start"`: prompt-side usage from
  `event["message"]["usage"]`. -/
  | messageStart (inputTokens cacheRead cacheCreation : Nat)
  /-- `type == "content_block_start"` with `content_block.type == "tool_use"`. -/
  | blockStartToolUse (name id : String)
  /-- `type == "content_block_start"` with any other block type. -/
  | blockStartOther
  /-- `type == "content_block_delta"` with `delta.type == "text_delta"`. -/
  | textDelta (text : String)
  /-- `type == "content_block_delta"` with `delta.type == "input_json_delta"`:
  one raw tool-argument fragment. -/
  | inputJsonDelta (partialJson : String)
  /-- `type == "content_block_stop"`. -/
  | blockStop
  /-- `type == "message_delta"`: `usage.get("output_tokens", current)`
  (`none` models an absent key, which keeps the current count). -/
  | messageDelta (outputTokens : Option Nat)
  /-- `type == "message_stop"`. -/
  | messageStop
  /-- Any other event type: no handler branch fires. -/
  | other
  deriving Repr, DecidableEq

/-- Re-typing of a surviving `(raw, parsed)` SSE payload as an `AEvent`,
following the dispatch of `AnthropicProvider._stream` literally.  (On a
non-object payload Python would raise `AttributeError` from `.get`; such
payloads re-type as `other` here, and no theorem below exercises them.) -/
def toAEvent (rawParsed : String × JVal) : AEvent :=
  let raw := rawParsed.1
  let event := rawParsed.2
  let eventType := jgetStr event "type"
  if eventType = "error" then
    let errData := (jget event "error").getD (.obj [])
    let errType := match jget errData "type" with
      | some (.str s) => s
      | _ => "unknown"
    let errMsg := match jget errData "message" with
      | some (.str s) => s
      | _ => raw
    .error errType errMsg
  else if eventType = "message_start" then
    let usage := (jget ((jget event "message").getD (.obj [])) "usage").getD (.obj [])
    .messageStart (jgetNat usage "input_tokens")
      (jgetNat usage "cache_read_input_tokens")
      (jgetNat usage "cache_creation_input_tokens")
  else if eventType = "content_block_start" then
    let block := (jget event "content_block").getD (.obj [])
    if jgetStr block "type" = "tool_use" then
      .blockStartToolUse (jgetStr block "name") (jgetStr block "id")
    else .blockStartOther
  else if eventType = "content_block_delta" then
    let delta := (jget event "delta").getD (.obj [])
    if jgetStr delta "type" = "text_delta" then .textDelta (jgetStr delta "text")
    else if jgetStr delta "type" = "input_json_delta" then
      .inputJsonDelta (jgetStr delta "partial_json")
    else .other
  else if eventType = "content_block_stop" then .blockStop
  else if eventType = "message_delta" then
    let usage := (jget event "usage").getD (.obj [])
    .messageDelta (match jget usage "output_tokens" with
      | some (.num n) => some n.toNat
      | _ => none)
  else if eventType = "message_stop" then .messageStop
  else .other

/-- The mutable locals of `AnthropicProvider._stream` (lines 113-119). -/
structure AState where
  inputTokens : Nat := 0
  outputTokens : Nat := 0
  cacheRead : Nat := 0
  cacheCreation : Nat := 0
  currentToolName : String := ""
  currentToolId : String := ""
  toolJsonBuf : String := ""
  deriving Repr, DecidableEq

/-- Streaming failures: `_RetryableError` versus a plain `RuntimeError`. -/
inductive StreamErr where
  | retryable (status : Nat) (msg : String)
  | fatal (msg : String)
  deriving Repr, DecidableEq

/-- Tool-argument finalization shared by both SSE decoders:
`json.loads(buf) if buf else {}`, substituting `{}` when `json.loads`
raises. -/
def finalizeArgs (buf : String) : JVal :=
  if buf = "" then .obj []
  else (loads buf).getD (.obj [])

/-- Handler for one Anthropic SSE event: the successor state and the chunks
yielded while processing it (empty or a singleton), or the raised error. -/
def anthropicHandle (s : AState) : AEvent → Except StreamErr (AState × List Chunk)
  | .error errType errMsg =>
      if errType = "overloaded_error" ∨ errType = "api_error" then
        .error (.retryable 529 (errType ++ ": " ++ errMsg))
      else
        .error (.fatal ("Anthropic stream error: " ++ errType ++ " — " ++ errMsg))
  | .messageStart inputTokens cacheRead cacheCreation =>
      .ok ({ s with
              inputTokens := inputTokens
              cacheRead := cacheRead
              cacheCreation := cacheCreation }, [])
  | .blockStartToolUse name id =>
      .ok ({ s with
              currentToolName := name
              currentToolId := id
              toolJsonBuf := "" }, [])
  | .blockStartOther => .ok (s, [])
  | .textDelta text => .ok (s, [{ content := text, done := false }])
  | .inputJsonDelta partialJson =>
      .ok ({ s with toolJsonBuf := s.toolJsonBuf ++ partialJson }, [])
  | .blockStop =>
      if s.currentToolName ≠ "" then
        let args := finalizeArgs s.toolJsonBuf
        .ok ({ s with currentToolName := "", toolJsonBuf := "" },
          [{ content := "",
             tool_calls := [{ name := s.currentToolName, arguments := args,
                              id := s.currentToolId }],
             done := false }])
      else .ok (s, [])
  | .messageDelta outputTokens =>
      .ok ({ s with outputTokens := outputTokens.getD s.outputTokens }, [])
  | .messageStop =>
      .ok (s, [{ content := "", done := true,
                 prompt_eval_count := s.inputTokens,
                 eval_count := s.outputTokens,
                 cache_read_input_tokens := s.cacheRead,
                 cache_creation_input_tokens := s.cacheCreation }])
  | .other => .ok (s, [])

/-- Run the Anthropic decoder over a list of events: all chunks yielded in
order, plus the final state (the Python `for` loop over `resp.iter_lines()`,
with the raised error short-circuiting). -/
def anthropicRun (s : AState) : List AEvent → Except StreamErr (List Chunk × AState)
  | [] => .ok ([], s)
  | e :: es =>
      match anthropicHandle s e with
      | .error err => .error err
      | .ok (s', cs) =>
          match anthropicRun s' es with
          | .error err => .error err
          | .ok (rest, sEnd) => .ok (cs ++ rest, sEnd)

/-- The full Anthropic streaming decode of one response body: SSE line
prelude, event re-typing, event handling, from the initial locals. -/
def anthropicChunksOfLines (lines : List String) : Except StreamErr (List Chunk) :=
  (anthropicRun {} ((sseData lines).map toAEvent)).map (·.1)

/-! ## OpenAI streaming decoder (`OpenAIProvider._stream`, lines 70-157)

Python truthiness note: `delta.get("content")`, `fn.get("name")`,
`fn.get("arguments")` and `choices[0].get("finish_reason")` are all used
under `if x:`; an absent key, `None`, and `""` behave identically there, so
each is modelled as a `String` with `""` for "absent or empty". -/

/-- One element of `delta["tool_calls"]` (an incremental tool-call delta). -/
structure OToolDelta where
  index : Nat := 0
  id : String := ""
  fname : String := ""
  fargs : String := ""
  deriving Repr, DecidableEq

/-- `choices[0]` of one streamed OpenAI chunk. -/
structure OChoice where
  content : String := ""
  toolCalls : List OToolDelta := []
  finish : String := ""
  deriving Repr, DecidableEq

/-- The optional `usage` object of one streamed chunk (`none` when the key is
absent or falsy); each token count `none` when its key is absent. -/
structure OUsage where
  promptTokens : Option Nat := none
  completionTokens : Option Nat := none
  deriving Repr, DecidableEq

/-- One parsed OpenAI SSE chunk, after field extraction
(`choice = none` models an empty `choices` list, which `continue`s). -/
structure OEvent where
  usage : Option OUsage := none
  choice : Option OChoice := none
  deriving Repr, DecidableEq

/-- One entry of `tool_calls_buf` (`{"id", "name", "arguments"}`). -/
structure OBuf where
  id : String := ""
  name : String := ""
  args : String := ""
  deriving Repr, DecidableEq

/-- The mutable locals of `OpenAIProvider._stream` (lines 81-83);
`buf` models the dict `tool_calls_buf : dict[int, dict]` as an assoc list in
insertion order with unique keys. -/
structure OState where
  inputTokens : Nat := 0
  outputTokens : Nat := 0
  buf : List (Nat × OBuf) := []
  deriving Repr, DecidableEq

/-- Whether `tool_calls_buf` has an entry for this index (`idx in buf`). -/
def bufContains (buf : List (Nat × OBuf)) (idx : Nat) : Bool :=
  buf.any (fun kv => kv.1 == idx)

/-- Point update of the entry at a given index. -/
def bufUpdate (buf : List (Nat × OBuf)) (idx : Nat) (f : OBuf → OBuf) :
    List (Nat × OBuf) :=
  buf.map (fun kv => if kv.1 == idx then (kv.1, f kv.2) else kv)

/-- Processing of one `tc_delta` (lines 115-127): create the buffer entry if
absent (capturing `tc_delta.get("id", "")` at creation), then record a
truthy `function.name` and append a truthy `function.arguments` fragment. -/
def applyToolDelta (buf : List (Nat × OBuf)) (td : OToolDelta) :
    List (Nat × OBuf) :=
  let buf1 := if bufContains buf td.index then buf
              else buf ++ [(td.index, { id := td.id })]
  let buf2 := if td.fname ≠ "" then
                bufUpdate buf1 td.index (fun b => { b with name := td.fname })
              else buf1
  if td.fargs ≠ "" then
    bufUpdate buf2 td.index (fun b => { b with args := b.args ++ td.fargs })
  else buf2

/-- Insertion into a list sorted by ascending index key. -/
def insertByKey (p : Nat × OBuf) : List (Nat × OBuf) → List (Nat × OBuf)
  | [] => [p]
  | q :: qs => if p.1 ≤ q.1 then p :: q :: qs else q :: insertByKey p qs

/-- `sorted(tool_calls_buf.items())`: the buffer entries by ascending index. -/
def sortByKey (l : List (Nat × OBuf)) : List (Nat × OBuf) :=
  l.foldr insertByKey []

/-- Handler for one OpenAI SSE chunk: successor state and yielded chunks, in
yield order (text delta, then at a finish reason the materialized tool calls
and the final `done` chunk). -/
def openaiHandle (s : OState) (e : OEvent) : OState × List Chunk :=
  let s1 := match e.usage with
    | none => s
    | some u =>
        { s with
            inputTokens := u.promptTokens.getD s.inputTokens
            outputTokens := u.completionTokens.getD s.outputTokens }
  match e.choice with
  | none => (s1, [])
  | some ch =>
      let contentChunks : List Chunk :=
        if ch.content ≠ "" then [{ content := ch.content, done := false }] else []
      let buf := ch.toolCalls.foldl applyToolDelta s1.buf
      let s2 := { s1 with buf := buf }
      if ch.finish ≠ "" then
        let toolChunks : List Chunk :=
          if buf ≠ [] then
            [{ content := ""
               tool_calls := (sortByKey buf).map (fun kv =>
                 { name := kv.2.name, arguments := finalizeArgs kv.2.args,
                   id := kv.2.id })
               done := false }]
          else []
        let doneChunk : Chunk :=
          { content := "", done := true,
            prompt_eval_count := s2.inputTokens, eval_count := s2.outputTokens }
        ({ s2 with buf := [] },
          contentChunks ++ toolChunks ++ [doneChunk])
      else (s2, contentChunks)

/-- Run the OpenAI decoder over a list of parsed chunks. -/
def openaiRun (s : OState) : List OEvent → List Chunk × OState
  | [] => ([], s)
  | e :: es =>
      let (s', cs) := openaiHandle s e
      let (rest, sEnd) := openaiRun s' es
      (cs ++ rest, sEnd)

/-- Extraction of one `tc_delta` from its JSON form. -/
def toOToolDelta (td : JVal) : OToolDelta :=
  let fn := (jget td "function").getD (.obj [])
  { index := jgetNat td "index", id := jgetStr td "id",
    fname := jgetStr fn "name", fargs := jgetStr fn "arguments" }

/-- Re-typing of a surviving `(raw, parsed)` SSE payload as an `OEvent`,
following the field accesses of `OpenAIProvider._stream` literally. -/
def toOEvent (rawParsed : String × JVal) : OEvent :=
  let chunk := rawParsed.2
  let usage : Option OUsage := match jget chunk "usage" with
    | some (.obj []) => none
    | some (.obj fields) =>
        some { promptTokens := match jget (.obj fields) "prompt_tokens" with
                 | some (.num n) => some n.toNat
                 | _ => none
               completionTokens := match jget (.obj fields) "completion_tokens" with
                 | some (.num n) => some n.toNat
                 | _ => none }
    | _ => none
  let choice : Option OChoice := match jget chunk "choices" with
    | some (.arr (c :: _)) =>
        let delta := (jget c "delta").getD (.obj [])
        some { content := jgetStr delta "content"
               toolCalls := match jget delta "tool_calls" with
                 | some (.arr tds) => tds.map toOToolDelta
                 | _ => []
               finish := jgetStr c "finish_reason" }
    | _ => none
  { usage := usage, choice := choice }

/-- The full OpenAI streaming decode of one response body. -/
def openaiChunksOfLines (lines : List String) : List Chunk :=
  (openaiRun {} ((sseData lines).map toOEvent)).1

/-! ## Ollama streaming decoder (`OllamaProvider._stream`, lines 81-92)

`for line in resp.iter_lines(): if line: yield json.loads(line)` — only
empty lines are skipped; `json.loads` is *not* guarded, so a non-JSON line
raises `json.JSONDecodeError` out of the generator after the earlier chunks
were already yielded. -/

/-- The Ollama stream decode: the chunks yielded before any decode error,
and `some errorMessage` if a non-JSON line aborted the stream. -/
def ollamaRun : List String → List JVal × Option String
  | [] => ([], none)
  | l :: ls =>
      if l = "" then ollamaRun ls
      else
        match loads l with
        | none => ([], some ("json.JSONDecodeError: " ++ l))
        | some j =>
            let (rest, err) := ollamaRun ls
            (j :: rest, err)

/-- Truthiness of `chunk.get("done")` on an Ollama chunk. -/
def jDone (j : JVal) : Bool :=
  match jget j "done" with
  | some (.bool b) => b
  | _ => false

/-- `chunk.get("prompt_eval_count", 0)` on an Ollama chunk. -/
def jPromptEval (j : JVal) : Nat := jgetNat j "prompt_eval_count"

/-- `chunk.get("eval_count", 0)` on an Ollama chunk. -/
def jEvalCount (j : JVal) : Nat := jgetNat j "eval_count"

/-! ## HTTP error classification and the retry loop

`requests.Response.ok` is `status_code < 400`. -/

/-- Result of a `_check_error`-style classification. -/
inductive CheckResult where
  | ok
  | retryable (status : Nat) (msg : String)
  | fatal (msg : String)
  deriving Repr, DecidableEq

/-- Whether a classification raises `_RetryableError`. -/
def CheckResult.isRetryableErr : CheckResult → Bool
  | .retryable _ _ => true
  | _ => false

/-- `_RETRYABLE_STATUS` of `anthropic_client.py` (line 17). -/
def retryableStatuses : List Nat := [429, 500, 502, 503, 529]

/-- `_MAX_RETRIES` (line 18). -/
def MAX_RETRIES : Nat := 3

/-- `_RETRY_BACKOFF` (line 19). -/
def RETRY_BACKOFF : List Nat := [2, 5, 10]

/-- `AnthropicProvider._check_error` (lines 248-261): `errMsg` is the message
extracted from the response body. -/
def anthropicCheckError (status : Nat) (errMsg : String)
    (raiseRetryable : Bool) : CheckResult :=
  if status < 400 then .ok
  else if status = 401 then
    .fatal "Anthropic API key is invalid. Check your ANTHROPIC_API_KEY."
  else if status ∈ retryableStatuses then
    if raiseRetryable then .retryable status errMsg
    else .fatal ("Anthropic API error (" ++ toString status ++ "): " ++ errMsg)
  else .fatal ("Anthropic API error (" ++ toString status ++ "): " ++ errMsg)

/-- `OpenAIProvider._check_error` (lines 196-206): checked in order 401,
429, then any other non-ok status; never raises `_RetryableError` (the class
does not exist in `openai_client.py`). -/
def openaiCheckError (providerName : String) (status : Nat)
    (errMsg : String) : CheckResult :=
  if status = 401 then
    .fatal (providerName ++ " API key is invalid. Check your API key.")
  else if status = 429 then
    .fatal (providerName ++ " rate limit exceeded. Wait and try again.")
  else if ¬ status < 400 then
    .fatal (providerName ++ " API error (" ++ toString status ++ "): " ++ errMsg)
  else .ok

/-- `OllamaProvider._check_404` followed by `resp.raise_for_status()`
(lines 61-78): 404 gets a model-not-found message, any other 4xx/5xx raises
`requests.HTTPError`; no status is ever classified retryable. -/
def ollamaCheckError (model : String) (availableModels : List String)
    (status : Nat) : CheckResult :=
  if status = 404 then
    .fatal ("Model '" ++ model ++ "' not found in Ollama."
      ++ (if availableModels ≠ [] then
            " Available: " ++ String.intercalate ", " availableModels
          else "")
      ++ "\nPull it first: ollama pull " ++ model)
  else if 400 ≤ status then
    .fatal ("requests.HTTPError: " ++ toString status)
  else .ok

deriving instance DecidableEq for Except

/-- Trace of one pass through the retry loop: total requests issued, backoff
waits slept (in order), and the outcome (`Except.error` models the raised
`RuntimeError` message). -/
structure RetryRun where
  attempts : Nat
  waits : List Nat
  result : Except String Unit
  deriving Repr, DecidableEq

/-- `AnthropicProvider._blocking` / `_connect_stream` retry loop (lines
74-108): `for attempt in range(_MAX_RETRIES)`, with
`raise_retryable = attempt < _MAX_RETRIES - 1` and backoff
`_RETRY_BACKOFF[min(attempt, len(_RETRY_BACKOFF) - 1)]`; the post-loop
`raise RuntimeError("Anthropic API: max retries exceeded")` fires only if
every iteration raised `_RetryableError`.  `statuses i` / `msgs i` are the
HTTP status and extracted error message of attempt `i`. -/
def anthropicRetryGo (statuses : Nat → Nat) (msgs : Nat → String) :
    Nat → Nat → RetryRun
  | 0, attempt =>
      { attempts := attempt, waits := [],
        result := .error "Anthropic API: max retries exceeded" }
  | fuel + 1, attempt =>
      match anthropicCheckError (statuses attempt) (msgs attempt)
          (decide (attempt < MAX_RETRIES - 1)) with
      | .ok => { attempts := attempt + 1, waits := [], result := .ok () }
      | .retryable _ _ =>
          let wait := RETRY_BACKOFF.getD (min attempt (RETRY_BACKOFF.length - 1)) 0
          let rest := anthropicRetryGo statuses msgs fuel (attempt + 1)
          { rest with waits := wait :: rest.waits }
      | .fatal m => { attempts := attempt + 1, waits := [], result := .error m }

/-- One full `_blocking` / `_connect_stream` call: the loop enters with
`_MAX_RETRIES` iterations remaining and `attempt = 0`. -/
def anthropicRetryRun (statuses : Nat → Nat) (msgs : Nat → String) : RetryRun :=
  anthropicRetryGo statuses msgs MAX_RETRIES 0

/-! ## Message conversion and response normalization -/

/-- Truthiness of `msg.get("tool_calls")` (absent, `None` and `[]` are all
falsy). -/
def toolCallsTruthy (msg : HMsg) : Bool :=
  match msg.tool_calls with
  | some (_ :: _) => true
  | _ => false

/-- Truthiness of `msg.get("content")`. -/
def contentTruthy (msg : HMsg) : Bool :=
  match msg.content with
  | some c => c ≠ ""
  | none => false

/-- One content block of an Anthropic API message
(`{"type": "text" | "tool_use" | "tool_result", ...}`). -/
inductive ABlock where
  | text (t : String)
  | toolUse (id name : String) (input : JVal)
  | toolResult (toolUseId content : String)
  deriving Repr, DecidableEq

/-- The `content` of an Anthropic API message: a plain string or a block
list. -/
inductive AContent where
  | plain (s : String)
  | blocks (bs : List ABlock)
  deriving Repr, DecidableEq

/-- One message in Anthropic API format. -/
structure AMsg where
  role : String
  content : AContent
  deriving Repr, DecidableEq

/-- Recursion of `AnthropicProvider._convert_messages` (lines 263-293):
collected system parts and converted API messages, in order. -/
def anthropicConvertAux : List HMsg → List String × List AMsg
  | [] => ([], [])
  | msg :: rest =>
      let (sysRest, apiRest) := anthropicConvertAux rest
      if msg.role = "system" then ((msg.content.getD "") :: sysRest, apiRest)
      else if msg.role = "tool" then
        (sysRest,
          { role := "user",
            content := .blocks [.toolResult (msg.tool_use_id.getD "")
              (msg.content.getD "")] } :: apiRest)
      else if msg.role = "assistant" ∧ toolCallsTruthy msg then
        let tcs := msg.tool_calls.getD []
        let blocks :=
          (if contentTruthy msg then [ABlock.text (msg.content.getD "")] else [])
            ++ tcs.map (fun tc => ABlock.toolUse tc.id tc.name tc.arguments)
        (sysRest, { role := "assistant", content := .blocks blocks } :: apiRest)
      else
        (sysRest, { role := msg.role,
                    content := .plain (msg.content.getD "") } :: apiRest)

/-- `AnthropicProvider._convert_messages`: the merged system text
(`"\n\n".join`) and the converted message list. -/
def anthropicConvertMessages (messages : List HMsg) : String × List AMsg :=
  let (sys, api) := anthropicConvertAux messages
  (String.intercalate "\n\n" sys, api)

/-- The normalized payload extracted from a vendor response
(`result["message"]` of `_normalize_response`); an empty `tool_calls` list
models the absent key. -/
structure NormResp where
  content : String
  tool_calls : List ToolCall := []
  deriving Repr, DecidableEq

/-- `AnthropicProvider._normalize_response` (lines 216-246), applied to the
`content` block list of a response: text parts joined with `"\n"`, tool-use
blocks collected in order (other block types are skipped by the
`type` dispatch). -/
def anthropicNormalize (blocks : List ABlock) : NormResp :=
  { content := String.intercalate "\n" (blocks.filterMap (fun b =>
      match b with
      | .text t => some t
      | _ => none))
    tool_calls := blocks.filterMap (fun b =>
      match b with
      | .toolUse id name input =>
          some { name := name, arguments := input, id := id }
      | _ => none) }

/-- One tool call in OpenAI wire format:
`{"id", "type": "function", "function": {"name", "arguments": <JSON text>}}`. -/
structure OAToolCall where
  id : String
  fname : String
  fargs : String
  deriving Repr, DecidableEq

/-- One message in OpenAI API format. -/
inductive OAMsg where
  /-- Assistant message carrying tool calls; `content` present only when
  truthy. -/
  | assistantTools (tool_calls : List OAToolCall) (content : Option String)
  /-- `{"role": "tool", "tool_call_id": ..., "content": ...}`. -/
  | toolMsg (tool_call_id content : String)
  /-- `{"role": ..., "content": ...}`. -/
  | plain (role content : String)
  deriving Repr, DecidableEq

/-- `OpenAIProvider._convert_messages` (lines 208-237), per message.  The
tool branch reads `msg.get("tool_call_id", "")` — note the key. -/
def openaiConvertMsg (msg : HMsg) : OAMsg :=
  if msg.role = "assistant" ∧ toolCallsTruthy msg then
    .assistantTools
      ((msg.tool_calls.getD []).map (fun tc =>
        { id := tc.id, fname := tc.name, fargs := dumps tc.arguments }))
      (if contentTruthy msg then msg.content else none)
  else if msg.role = "tool" then
    .toolMsg (msg.tool_call_id.getD "") (msg.content.getD "")
  else .plain msg.role (msg.content.getD "")

/-- `OpenAIProvider._convert_messages` over the whole list. -/
def openaiConvertMessages (messages : List HMsg) : List OAMsg :=
  messages.map openaiConvertMsg

/-- The `choices[0]["message"]` of an OpenAI response
(an empty `tool_calls` models an absent or falsy key). -/
structure OARespMsg where
  content : Option String := none
  tool_calls : List OAToolCall := []
  deriving Repr, DecidableEq

/-- `json.loads(fn.get("arguments", "{}"))` with the `JSONDecodeError`
handler substituting `{}` (an absent key yields `"{}"`, which parses to the
same `{}` the `getD` default supplies). -/
def openaiParseArgs (fargs : String) : JVal :=
  (loads fargs).getD (.obj [])

/-- `OpenAIProvider._normalize_response` (lines 159-194), applied to the
response message: `content` via `msg.get("content", "") or ""`, tool calls
deserialized in order when the list is truthy. -/
def openaiNormalize (msg : OARespMsg) : NormResp :=
  { content := msg.content.getD ""
    tool_calls :=
      if msg.tool_calls ≠ [] then
        msg.tool_calls.map (fun tc =>
          { name := tc.fname, arguments := openaiParseArgs tc.fargs, id := tc.id })
      else [] }

/-- The vendor response message carrying exactly the payload of a converted
request message (the shape `_normalize_response` reads back). -/
def oaRespOfConverted : OAMsg → OARespMsg
  | .assistantTools tcs content => { content := content, tool_calls := tcs }
  | .toolMsg _ c => { content := some c }
  | .plain _ c => { content := some c }

/-- `OllamaProvider.chat` performs no message conversion: the canonical
`messages` list is placed verbatim into the request payload
(`ollama_client.py` lines 50-54). -/
def ollamaConvertMessages (messages : List HMsg) : List HMsg := messages

/-- `OllamaProvider._blocking` returns `resp.json()` verbatim (line 79): no
response normalization. -/
def ollamaNormalizeResponse (response : JVal) : JVal := response

/-! ## Tool-calling orchestration loop

`cli.py` `_handle_streaming_response` (lines 136-234) and the `web.py`
`/api/chat` handler (lines 136-195) contain the same bounded loop text:
`for _round in range(max_tool_rounds)` with `max_tool_rounds = 5`;
each round accumulates the round's content into `full_content` and breaks
when the round produced no tool calls.  `responses i` abstracts what round
`i`'s `chat` call produced: the round's accumulated content and the
collected tool calls.  Only the CLI ever executes this loop: the `web.py`
handler evaluates `ResponseMetrics()` (line 149) before its loop, and
`web.py` binds only `extract_metrics` from `.metrics` (line 16), so every
non-empty chat turn raises `NameError` first — modelled by `webChat`
below. -/

/-- `max_tool_rounds` (`cli.py` line 141, `web.py` line 150). -/
def MAX_TOOL_ROUNDS : Nat := 5

/-- The round loop: remaining rounds, next round index, accumulated content;
returns the final `full_content` and the number of `chat` calls made. -/
def toolRoundLoop (responses : Nat → String × List ToolCall) :
    Nat → Nat → String → String × Nat
  | 0, idx, acc => (acc, idx)
  | n + 1, idx, acc =>
      let (content, tcs) := responses idx
      let acc2 := acc ++ content
      if tcs = [] then (acc2, idx + 1)
      else toolRoundLoop responses n (idx + 1) acc2

/-- One user turn of the orchestration loop. -/
def runToolRounds (responses : Nat → String × List ToolCall) : String × Nat :=
  toolRoundLoop responses MAX_TOOL_ROUNDS 0 ""

/-- The names `web.py` binds from `.metrics` (line 16:
`from .metrics import extract_metrics`). -/
def webMetricsImports : List String := ["extract_metrics"]

/-- The names `cli.py` binds from `.metrics` (line 19:
`from .metrics import ResponseMetrics, extract_metrics`). -/
def cliMetricsImports : List String := ["ResponseMetrics", "extract_metrics"]

/-- Outcome of one `POST /api/chat` turn: the early 400 response for an
empty message, an uncaught `NameError` escaping the handler, or a normal
reply (the final `full_content` and the number of `chat` calls made). -/
inductive WebChatResult where
  | badRequest (error : String) : WebChatResult
  | nameError (name : String) : WebChatResult
  | ok (reply : String) (chatCalls : Nat) : WebChatResult
  deriving Repr, DecidableEq

/-- The `web.py` `/api/chat` handler (lines 136-195), parametrized by the
names its module binds from `.metrics`.  An empty message returns the 400
response (line 140) before anything else; otherwise the handler evaluates
`metrics = ResponseMetrics()` (line 149), which raises `NameError` when
that name is unbound in the module, and only past that line does it run
the bounded tool round loop (lines 152-177). -/
def webChat (metricsNames : List String) (userText : String)
    (responses : Nat → String × List ToolCall) : WebChatResult :=
  if userText = "" then .badRequest "missing message"
  else if "ResponseMetrics" ∈ metricsNames then
    .ok (runToolRounds responses).1 (runToolRounds responses).2
  else .nameError "ResponseMetrics"

/-! ## Concrete-input helpers used by the theorems below -/

/-- A history message whose content is `n` characters long
(so its token estimate is `n / 4`). -/
def msgOfLen (n : Nat) : HMsg :=
  addMessageMsg "user" (String.mk (List.replicate n 'x'))

/-- Concatenation of streamed fragments in arrival order
(`tool_json_buf += partial_json` / `buf["arguments"] += fragment`). -/
def concatStrs : List String → String
  | [] => ""
  | f :: fs => f ++ concatStrs fs

/-- An OpenAI stream chunk opening tool call `idx` (carrying its id and
name, as the first delta of an invocation does). -/
def oStartEvent (idx : Nat) (id name : String) : OEvent :=
  { choice := some { toolCalls := [{ index := idx, id := id, fname := name }] } }

/-- An OpenAI stream chunk carrying one argument fragment for tool call
`idx`. -/
def oFragEvent (idx : Nat) (f : String) : OEvent :=
  { choice := some { toolCalls := [{ index := idx, fargs := f }] } }

/-- An OpenAI stream chunk carrying a finish reason. -/
def oFinishEvent : OEvent :=
  { choice := some { finish := "stop" } }

/-! ## Shared lemmas -/

theorem trimHistory_cons₂ (maxTokens : Nat) (m m' : HMsg) (ms : List HMsg) :
    trimHistory maxTokens (m :: m' :: ms) =
      if estimateTokens (m :: m' :: ms) > maxTokens then
        trimHistory maxTokens (m' :: ms)
      else m :: m' :: ms := rfl

theorem trimHistory_eq_drop (maxTokens : Nat) :
    ∀ h : List HMsg, ∃ k, trimHistory maxTokens h = h.drop k := by
  intro h
  induction h with
  | nil => exact ⟨0, rfl⟩
  | cons m ms ih =>
    cases ms with
    | nil => exact ⟨0, rfl⟩
    | cons m' ms' =>
      rw [trimHistory_cons₂]
      by_cases hc : estimateTokens (m :: m' :: ms') > maxTokens
      · obtain ⟨k, hk⟩ := ih
        exact ⟨k + 1, by simp [hc, hk]⟩
      · exact ⟨0, by simp [hc]⟩

theorem trimHistory_post (maxTokens : Nat) :
    ∀ h : List HMsg,
      estimateTokens (trimHistory maxTokens h) ≤ maxTokens ∨
        (trimHistory maxTokens h).length = 1 := by
  intro h
  induction h with
  | nil => left; simp [trimHistory, estimateTokens]
  | cons m ms ih =>
    cases ms with
    | nil => right; rfl
    | cons m' ms' =>
      rw [trimHistory_cons₂]
      by_cases hc : estimateTokens (m :: m' :: ms') > maxTokens
      · simpa [hc] using ih
      · left; simpa [hc] using Nat.not_lt.mp hc

theorem trimHistory_ne_nil (maxTokens : Nat) :
    ∀ h : List HMsg, h ≠ [] → trimHistory maxTokens h ≠ [] := by
  intro h
  induction h with
  | nil => intro hne; exact absurd rfl hne
  | cons m ms ih =>
    cases ms with
    | nil => intro _; simp [trimHistory]
    | cons m' ms' =>
      intro _
      rw [trimHistory_cons₂]
      by_cases hc : estimateTokens (m :: m' :: ms') > maxTokens
      · simpa [hc] using ih (by simp)
      · simp [hc]

set_option maxRecDepth 4000 in
/-- C8: `trim_history(max_tokens)` evicts from the front only (the result is
a suffix obtained by dropping the oldest messages); on return the token
estimate (content length ÷ 4, summed, with contentless messages contributing
0) is within budget or exactly one message remains, and a non-empty history
never trims to empty; in particular estimated sizes `[100, 50, 30]` with
budget 60 trim to the single size-30 message. -/
theorem trimHistory_spec (maxTokens : Nat) (h : List HMsg) :
    (∃ k, trimHistory maxTokens h = h.drop k) ∧
    (estimateTokens (trimHistory maxTokens h) ≤ maxTokens ∨
      (trimHistory maxTokens h).length = 1) ∧
    (h ≠ [] → trimHistory maxTokens h ≠ []) ∧
    trimHistory 60 [msgOfLen 400, msgOfLen 200, msgOfLen 120] = [msgOfLen 120] :=
  ⟨trimHistory_eq_drop maxTokens h, trimHistory_post maxTokens h,
    trimHistory_ne_nil maxTokens h, by decide⟩

/-- Witness for `trimHistory_spec` at a concrete input, discharging its
non-emptiness hypothesis. -/
theorem trimHistory_spec_witness :
    trimHistory 60 [msgOfLen 400, msgOfLen 200, msgOfLen 120] ≠ [] :=
  (trimHistory_spec 60 [msgOfLen 400, msgOfLen 200, msgOfLen 120]).2.2.1
    (by decide)

theorem applyHistOp_suffix {h A : List HMsg} (op : HistOp) (hs : h <:+ A) :
    applyHistOp h op <:+ A ++ appendedBy op := by
  obtain ⟨t, ht⟩ := hs
  cases op with
  | addMessage role content =>
      exact ⟨t, by simp [applyHistOp, appendedBy, ← List.append_assoc, ht]⟩
  | addToolCall tcs =>
      exact ⟨t, by simp [applyHistOp, appendedBy, ← List.append_assoc, ht]⟩
  | addToolResult content toolUseId =>
      exact ⟨t, by simp [applyHistOp, appendedBy, ← List.append_assoc, ht]⟩
  | trimHistory maxTokens =>
      obtain ⟨k, hk⟩ := trimHistory_eq_drop maxTokens h
      refine List.IsSuffix.trans ?_ (by simp [appendedBy] : A <:+ A ++ ([] : List HMsg))
      rw [applyHistOp, hk]
      exact (List.drop_suffix k h).trans ⟨t, ht.symm ▸ rfl⟩
  | clearHistory =>
      exact List.nil_suffix

theorem runHistOps_suffix_aux :
    ∀ (ops : List HistOp) (h A : List HMsg), h <:+ A →
      ops.foldl applyHistOp h <:+ A ++ allAppended ops := by
  intro ops
  induction ops with
  | nil => intro h A hs; simpa [allAppended] using hs
  | cons op rest ih =>
    intro h A hs
    have step := applyHistOp_suffix op hs
    have := ih (applyHistOp h op) (A ++ appendedBy op) step
    simpa [allAppended, List.append_assoc] using this

/-- C10: every `BaseProvider` history mutator either appends exactly one
message at the end (`add_message`, `add_tool_call`, `add_tool_result`),
removes messages only from the front (`trim_history`), or empties the list
(`clear_history`); consequently, after any sequence of mutators starting
from the empty history, the history is a contiguous suffix, in append
order, of the sequence of all messages ever appended. -/
theorem historyOps_spec :
    (∀ (h : List HMsg) (role content : String),
      applyHistOp h (.addMessage role content) = h ++ [addMessageMsg role content]) ∧
    (∀ (h : List HMsg) (tcs : List ToolCall),
      applyHistOp h (.addToolCall tcs) = h ++ [addToolCallMsg tcs]) ∧
    (∀ (h : List HMsg) (content toolUseId : String),
      applyHistOp h (.addToolResult content toolUseId) =
        h ++ [addToolResultMsg content toolUseId]) ∧
    (∀ (h : List HMsg) (maxTokens : Nat),
      ∃ k, applyHistOp h (.trimHistory maxTokens) = h.drop k) ∧
    (∀ h : List HMsg, applyHistOp h .clearHistory = []) ∧
    (∀ ops : List HistOp, runHistOps ops <:+ allAppended ops) := by
  refine ⟨fun _ _ _ => rfl, fun _ _ => rfl, fun _ _ _ => rfl,
    fun h maxTokens => trimHistory_eq_drop maxTokens h, fun _ => rfl, ?_⟩
  intro ops
  simpa using runHistOps_suffix_aux ops [] [] List.nil_suffix

/-- The concatenation of the contents of `n` consecutive rounds starting at
round `idx` (what `full_content` accumulates). -/
def roundsContent (responses : Nat → String × List ToolCall) : Nat → Nat → String
  | 0, _ => ""
  | n + 1, idx => (responses idx).1 ++ roundsContent responses n (idx + 1)

theorem toolRoundLoop_calls_le (responses : Nat → String × List ToolCall) :
    ∀ fuel idx acc, (toolRoundLoop responses fuel idx acc).2 ≤ idx + fuel := by
  intro fuel
  induction fuel with
  | zero => intro idx acc; simp [toolRoundLoop]
  | succ n ih =>
    intro idx acc
    rw [toolRoundLoop]
    by_cases hc : (responses idx).2 = []
    · simp [hc]
    · have := ih (idx + 1) (acc ++ (responses idx).1)
      simp [hc]
      omega

theorem toolRoundLoop_all (responses : Nat → String × List ToolCall) :
    ∀ fuel idx acc, (∀ i, idx ≤ i → i < idx + fuel → (responses i).2 ≠ []) →
      toolRoundLoop responses fuel idx acc =
        (acc ++ roundsContent responses fuel idx, idx + fuel) := by
  intro fuel
  induction fuel with
  | zero => intro idx acc _; simp [toolRoundLoop, roundsContent]
  | succ n ih =>
    intro idx acc hall
    rw [toolRoundLoop]
    have hidx : (responses idx).2 ≠ [] := hall idx le_rfl (by omega)
    simp only [hidx, if_neg, ite_false]
    rw [ih (idx + 1) (acc ++ (responses idx).1)
      (fun i h1 h2 => hall i (by omega) (by omega))]
    simp [roundsContent, String.append_assoc]
    omega

theorem toolRoundLoop_stop (responses : Nat → String × List ToolCall) :
    ∀ fuel idx acc k, idx ≤ k → k < idx + fuel → (responses k).2 = [] →
      (∀ i, idx ≤ i → i < k → (responses i).2 ≠ []) →
      toolRoundLoop responses fuel idx acc =
        (acc ++ roundsContent responses (k + 1 - idx) idx, k + 1) := by
  intro fuel
  induction fuel with
  | zero => intro idx acc k h1 h2 _ _; omega
  | succ n ih =>
    intro idx acc k h1 h2 hk hpre
    rw [toolRoundLoop]
    by_cases hidx : idx = k
    · subst hidx
      simp [hk, show idx + 1 - idx = 1 from by omega, roundsContent]
    · have hne : (responses idx).2 ≠ [] := hpre idx le_rfl (by omega)
      simp only [hne, if_neg, ite_false]
      rw [ih (idx + 1) (acc ++ (responses idx).1) k (by omega) (by omega) hk
        (fun i ha hb => hpre i (by omega) hb)]
      have hsplit : k + 1 - idx = (k + 1 - (idx + 1)) + 1 := by omega
      rw [hsplit]
      simp [roundsContent, String.append_assoc]

/-- C7: refuted for the `web.py` path the claim cites.  The `/api/chat`
handler never reaches its tool round loop: for every non-empty user
message it raises `NameError` at `metrics = ResponseMetrics()` (web.py
line 149), because `web.py` imports only `extract_metrics` from `.metrics`
and never binds `ResponseMetrics`; no turn returns the accumulated content
without raising, and an empty message yields the 400 response.  With
`ResponseMetrics` bound — as `cli.py` binds it, whose loop the
`toolRoundLoop` lemmas above show is bounded by 5 rounds — the same
handler body returns the loop's accumulated content. -/
theorem toolLoop_bug (userText : String)
    (responses : Nat → String × List ToolCall) :
    webChat webMetricsImports userText responses =
      (if userText = "" then .badRequest "missing message"
       else .nameError "ResponseMetrics") ∧
    webChat cliMetricsImports userText responses =
      (if userText = "" then .badRequest "missing message"
       else .ok (runToolRounds responses).1 (runToolRounds responses).2) := by
  constructor
  · by_cases h : userText = ""
    · rw [webChat, if_pos h, if_pos h]
    · rw [webChat, if_neg h, if_neg h,
        if_neg (by decide : ¬ "ResponseMetrics" ∈ webMetricsImports)]
  · by_cases h : userText = ""
    · rw [webChat, if_pos h, if_pos h]
    · rw [webChat, if_neg h, if_neg h,
        if_pos (by decide : "ResponseMetrics" ∈ cliMetricsImports)]

theorem anthropicCheckError_retryable {s : Nat} (hs : s ∈ retryableStatuses)
    (m : String) : anthropicCheckError s m true = .retryable s m := by
  fin_cases hs <;> rfl

theorem anthropicCheckError_transient_fatal {s : Nat} (hs : s ∈ retryableStatuses)
    (m : String) :
    anthropicCheckError s m false =
      .fatal ("Anthropic API error (" ++ toString s ++ "): " ++ m) := by
  fin_cases hs <;> rfl

theorem anthropicCheckError_ok {s : Nat} (hs : s < 400) (m : String) (b : Bool) :
    anthropicCheckError s m b = .ok := by
  simp [anthropicCheckError, hs]

/-- C2 (amended): through the Anthropic retry controller, 2 transient
failures followed by a success complete with exactly 3 total attempts and
exactly 2 backoff waits `[2, 5]` from the fixed schedule `[2, 5, 10]`; 3
consecutive transient failures make exactly 3 attempts, no more, with the
same 2 waits, and raise a fatal error carrying the last status and vendor
message (`"Anthropic API error (<status>): <msg>"`) — the dedicated
`"max retries exceeded"` error is not what this path raises, because the
final attempt classifies the transient status as fatal directly. -/
theorem anthropicRetry_spec (statuses : Nat → Nat) (msgs : Nat → String)
    (h0 : statuses 0 ∈ retryableStatuses) (h1 : statuses 1 ∈ retryableStatuses) :
    (statuses 2 < 400 →
      anthropicRetryRun statuses msgs =
        { attempts := 3, waits := [2, 5], result := .ok () }) ∧
    (statuses 2 ∈ retryableStatuses →
      anthropicRetryRun statuses msgs =
        { attempts := 3, waits := [2, 5],
          result := .error
            ("Anthropic API error (" ++ toString (statuses 2) ++ "): " ++ msgs 2) }) := by
  constructor
  · intro h2
    simp [anthropicRetryRun, MAX_RETRIES, anthropicRetryGo,
      anthropicCheckError_retryable h0, anthropicCheckError_retryable h1,
      anthropicCheckError_ok h2, RETRY_BACKOFF]
  · intro h2
    simp [anthropicRetryRun, MAX_RETRIES, anthropicRetryGo,
      anthropicCheckError_retryable h0, anthropicCheckError_retryable h1,
      anthropicCheckError_transient_fatal h2, RETRY_BACKOFF]

/-- C2 counterexample: 3 consecutive transient failures (status 529) make 3
attempts and raise the generic vendor error, not the `"max retries"` error
the claim names (that message is unreachable from the HTTP-status path,
because the final attempt is checked with `raise_retryable=False`). -/
theorem anthropicRetry_counterexample :
    anthropicRetryRun (fun _ => 529) (fun _ => "Overloaded") =
      { attempts := 3, waits := [2, 5],
        result := .error "Anthropic API error (529): Overloaded" } ∧
    (Except.error "Anthropic API error (529): Overloaded" : Except String Unit) ≠
      .error "Anthropic API: max retries exceeded" := by
  constructor
  · decide
  · decide

/-- Witness for `anthropicRetry_spec`: 2 overload failures then a 200. -/
theorem anthropicRetry_spec_witness :
    anthropicRetryRun (fun i => if i < 2 then 529 else 200) (fun _ => "m") =
      { attempts := 3, waits := [2, 5], result := .ok () } :=
  (anthropicRetry_spec (fun i => if i < 2 then 529 else 200) (fun _ => "m")
    (by decide) (by decide)).1 (by decide)

/-- C3 (amended): HTTP 401 raises a fatal invalid-credential error naming
the credential to check for the Anthropic and OpenAI adapters; the Anthropic
adapter alone classifies the transient set {429, 500, 502, 503, 529} as
retryable (when retry budget remains) and retries it, all its other non-2xx
statuses being fatal; the OpenAI and Ollama adapters never classify any
status as retryable — every non-ok status (including 429 and 5xx) raises a
fatal error without retry (Ollama's 404 carrying a model-not-found message,
its other errors a plain `HTTPError`, with no credential named). -/
theorem checkError_spec (pn model errMsg : String) (avail : List String) :
    (∀ b, anthropicCheckError 401 errMsg b =
      .fatal "Anthropic API key is invalid. Check your ANTHROPIC_API_KEY.") ∧
    (openaiCheckError pn 401 errMsg =
      .fatal (pn ++ " API key is invalid. Check your API key.")) ∧
    (∀ s, s ∈ retryableStatuses → ∀ m, anthropicCheckError s m true = .retryable s m) ∧
    (∀ statuses msgs, statuses 0 ∈ retryableStatuses → statuses 1 < 400 →
      anthropicRetryRun statuses msgs =
        { attempts := 2, waits := [2], result := .ok () }) ∧
    (∀ s, ¬ s < 400 → s ∉ retryableStatuses → s ≠ 401 → ∀ b,
      anthropicCheckError s errMsg b =
        .fatal ("Anthropic API error (" ++ toString s ++ "): " ++ errMsg)) ∧
    (∀ s, (openaiCheckError pn s errMsg).isRetryableErr = false) ∧
    (∀ s, ¬ s < 400 → ∃ m, openaiCheckError pn s errMsg = .fatal m) ∧
    (∀ s, (ollamaCheckError model avail s).isRetryableErr = false) ∧
    (∀ s, ¬ s < 400 → ∃ m, ollamaCheckError model avail s = .fatal m) := by
  refine ⟨?_, ?_, ?_, ?_, ?_, ?_, ?_, ?_, ?_⟩
  · intro b; rfl
  · rfl
  · intro s hs m; exact anthropicCheckError_retryable hs m
  · intro statuses msgs h0 h1
    simp [anthropicRetryRun, MAX_RETRIES, anthropicRetryGo,
      anthropicCheckError_retryable h0, anthropicCheckError_ok h1, RETRY_BACKOFF]
  · intro s hlt hmem h401 b
    simp only [anthropicCheckError, if_neg hlt, if_neg h401]
    simp [hmem]
  · intro s
    by_cases h401 : s = 401
    · subst h401; rfl
    · by_cases h429 : s = 429
      · subst h429; rfl
      · by_cases hok : s < 400 <;>
          simp [openaiCheckError, h401, h429, hok, CheckResult.isRetryableErr]
  · intro s hs
    by_cases h401 : s = 401
    · subst h401; exact ⟨_, rfl⟩
    · by_cases h429 : s = 429
      · subst h429; exact ⟨_, rfl⟩
      · exact ⟨pn ++ " API error (" ++ toString s ++ "): " ++ errMsg,
          by simp [openaiCheckError, h401, h429, hs]⟩
  · intro s
    by_cases h404 : s = 404
    · subst h404; rfl
    · by_cases hge : 400 ≤ s <;>
        simp [ollamaCheckError, h404, hge, CheckResult.isRetryableErr]
  · intro s hs
    by_cases h404 : s = 404
    · subst h404; exact ⟨_, rfl⟩
    · exact ⟨"requests.HTTPError: " ++ toString s,
        by simp [ollamaCheckError, h404, Nat.not_lt.mp hs]⟩

/-- C3 counterexample: the OpenAI adapter classifies HTTP 429 (in the
claim's transient set) as a fatal error, never as retryable. -/
theorem openai429_counterexample :
    openaiCheckError "openai" 429 "Too Many Requests" =
      .fatal "openai rate limit exceeded. Wait and try again." ∧
    (openaiCheckError "openai" 429 "Too Many Requests").isRetryableErr = false := by
  exact ⟨rfl, rfl⟩

/-- Witness for `checkError_spec`: a 503 followed by a 200 is retried once
by the Anthropic controller. -/
theorem checkError_spec_witness :
    anthropicRetryRun (fun i => if i = 0 then 503 else 200) (fun _ => "m") =
      { attempts := 2, waits := [2], result := .ok () } :=
  (checkError_spec "openai" "llama3" "m" []).2.2.2.1
    (fun i => if i = 0 then 503 else 200) (fun _ => "m") (by decide) (by decide)

/-- C5: evaluation at the failing input.  The tool-role history message
produced by `add_tool_result("ok", tool_use_id="call_123")` stores the id
under the key `tool_use_id`; the Anthropic conversion reads that key and
keys its `tool_result` block by `"call_123"`, but the OpenAI conversion
reads `msg.get("tool_call_id", "")` — a key no writer in the repository ever
sets — so its vendor message carries `tool_call_id = ""`, not the
originating ToolCall id. -/
theorem toolResultId_bug :
    addToolResultMsg "ok" "call_123" =
      { role := "tool", content := some "ok", tool_use_id := some "call_123" } ∧
    (anthropicConvertMessages [addToolResultMsg "ok" "call_123"]).2 =
      [{ role := "user", content := .blocks [.toolResult "call_123" "ok"] }] ∧
    openaiConvertMsg (addToolResultMsg "ok" "call_123") = .toolMsg "" "ok" ∧
    OAMsg.toolMsg "" "ok" ≠ OAMsg.toolMsg "call_123" "ok" := by
  refine ⟨rfl, rfl, rfl, by decide⟩

theorem normalize_toolUse_map (tcs : List ToolCall) :
    (anthropicNormalize
      (tcs.map (fun tc => ABlock.toolUse tc.id tc.name tc.arguments))).tool_calls
      = tcs := by
  induction tcs with
  | nil => rfl
  | cons t ts ih =>
    simp only [anthropicNormalize, List.map_cons, List.filterMap_cons] at ih ⊢
    simpa using ih

theorem map_deser_ser (tcs : List ToolCall)
    (hparse : ∀ tc ∈ tcs, loads (dumps tc.arguments) = some tc.arguments) :
    (tcs.map (fun tc =>
      ({ id := tc.id, fname := tc.name, fargs := dumps tc.arguments } : OAToolCall))).map
      (fun tc => ({ name := tc.fname, arguments := openaiParseArgs tc.fargs,
                    id := tc.id } : ToolCall)) = tcs := by
  induction tcs with
  | nil => rfl
  | cons t ts ih =>
    simp only [List.map_cons, List.cons.injEq]
    refine ⟨?_, ih (fun tc htc => hparse tc (by simp [htc]))⟩
    have ht := hparse t (by simp)
    simp [openaiParseArgs, ht]

theorem anthropicNormalize_text_cons (t : String) (bs : List ABlock) :
    (anthropicNormalize (ABlock.text t :: bs)).tool_calls =
      (anthropicNormalize bs).tool_calls := by
  simp [anthropicNormalize, List.filterMap_cons]

/-! ## `json.loads ∘ json.dumps` is the identity on the modelled values

These lemmas discharge, inside the model, the serialization round trip the
OpenAI adapter relies on: `loads (dumps v) = some v` for every `JVal`. -/

theorem digitChar_isDigit {n : Nat} (h : n < 10) :
    (Nat.digitChar n).isDigit = true := by
  interval_cases n <;> decide

theorem digitVal_digitChar {n : Nat} (h : n < 10) :
    digitVal (Nat.digitChar n) = n := by
  interval_cases n <;> decide

theorem natOfDigits_append (ds₁ ds₂ : List Char) :
    ∀ acc, natOfDigits (ds₁ ++ ds₂) acc = natOfDigits ds₂ (natOfDigits ds₁ acc) := by
  induction ds₁ with
  | nil => intro acc; rfl
  | cons d ds ih =>
    intro acc
    simp only [List.cons_append, natOfDigits, List.append_eq, ih]

theorem toDigitsCore_acc (fuel : Nat) :
    ∀ (n : Nat) (ds : List Char),
      Nat.toDigitsCore 10 fuel n ds = Nat.toDigitsCore 10 fuel n [] ++ ds := by
  induction fuel with
  | zero => intro n ds; rfl
  | succ f ih =>
    intro n ds
    rw [Nat.toDigitsCore, Nat.toDigitsCore]
    by_cases h : n / 10 = 0
    · simp [h]
    · simp only [h, if_neg, ite_false]
      rw [ih (n / 10) [Nat.digitChar (n % 10)],
        ih (n / 10) (Nat.digitChar (n % 10) :: ds), List.append_assoc]
      rfl

theorem toDigitsCore_digits (fuel : Nat) :
    ∀ (n : Nat) (ds : List Char), (∀ c ∈ ds, c.isDigit = true) →
      ∀ c ∈ Nat.toDigitsCore 10 fuel n ds, c.isDigit = true := by
  induction fuel with
  | zero => intro n ds hds; exact hds
  | succ f ih =>
    intro n ds hds
    rw [Nat.toDigitsCore]
    by_cases h : n / 10 = 0
    · simp only [h, ite_true, if_pos]
      intro c hc
      rcases List.mem_cons.mp hc with rfl | hc
      · exact digitChar_isDigit (Nat.mod_lt n (by norm_num))
      · exact hds c hc
    · simp only [h, if_neg, ite_false]
      refine ih (n / 10) _ ?_
      intro c hc
      rcases List.mem_cons.mp hc with rfl | hc
      · exact digitChar_isDigit (Nat.mod_lt n (by norm_num))
      · exact hds c hc

theorem toDigitsCore_ne_nil (f n : Nat) (ds : List Char) :
    Nat.toDigitsCore 10 (f + 1) n ds ≠ [] := by
  rw [Nat.toDigitsCore]
  by_cases h : n / 10 = 0
  · simp [h]
  · simp only [h, if_neg, ite_false]
    rw [toDigitsCore_acc]
    simp

theorem toDigitsCore_val (fuel : Nat) :
    ∀ n, n < fuel → ∀ acc,
      natOfDigits (Nat.toDigitsCore 10 fuel n []) acc =
        acc * 10 ^ (Nat.toDigitsCore 10 fuel n []).length + n := by
  induction fuel with
  | zero => intro n h; omega
  | succ f ih =>
    intro n h acc
    rw [Nat.toDigitsCore]
    by_cases h0 : n / 10 = 0
    · simp only [h0, ite_true, if_pos]
      have hn : n < 10 := by omega
      rw [Nat.mod_eq_of_lt hn]
      simp [natOfDigits, digitVal_digitChar hn]
      ring
    · simp only [h0, if_neg, ite_false]
      rw [toDigitsCore_acc]
      have hlt : n / 10 < f := by
        have h1 : 0 < n := by
          rcases Nat.eq_zero_or_pos n with rfl | h1
          · simp at h0
          · exact h1
        have := Nat.div_lt_self h1 (by norm_num : (1 : Nat) < 10)
        omega
      rw [natOfDigits_append, ih (n / 10) hlt acc]
      have hdm := Nat.div_add_mod n 10
      simp only [natOfDigits, digitVal_digitChar (Nat.mod_lt n (by norm_num)),
        List.length_append, List.length_cons, List.length_nil]
      rw [pow_succ]
      ring_nf
      omega

theorem repr_toList (m : Nat) :
    (Nat.repr m).toList = Nat.toDigitsCore 10 (m + 1) m [] := rfl

theorem repr_digits (m : Nat) : ∀ c ∈ (Nat.repr m).toList, c.isDigit = true := by
  rw [repr_toList]
  exact toDigitsCore_digits (m + 1) m [] (by simp)

theorem repr_ne_nil (m : Nat) : (Nat.repr m).toList ≠ [] := by
  rw [repr_toList]
  exact toDigitsCore_ne_nil m m []

theorem repr_val (m : Nat) : natOfDigits (Nat.repr m).toList 0 = m := by
  rw [repr_toList]
  have h := toDigitsCore_val (m + 1) m (by omega) 0
  simpa using h

theorem ne_of_isDigit (c d : Char) (h : c.isDigit = true)
    (hd : d.isDigit = false) : c ≠ d := by
  intro hc
  rw [hc] at h
  rw [h] at hd
  exact absurd hd (by decide)

theorem isDigit_not_ws {c : Char} (h : c.isDigit = true) : isJsonWs c = false := by
  have h1 := ne_of_isDigit c ' ' h (by decide)
  have h2 := ne_of_isDigit c '\t' h (by decide)
  have h3 := ne_of_isDigit c '\n' h (by decide)
  have h4 := ne_of_isDigit c '\r' h (by decide)
  simp [isJsonWs, h1, h2, h3, h4]

theorem takeWhile_all_append (p : Char → Bool) :
    ∀ (l₁ l₂ : List Char), (∀ c ∈ l₁, p c = true) →
      (∀ c, l₂.head? = some c → p c = false) →
      (l₁ ++ l₂).takeWhile p = l₁ ∧ (l₁ ++ l₂).dropWhile p = l₂ := by
  intro l₁
  induction l₁ with
  | nil =>
    intro l₂ _ h2
    cases l₂ with
    | nil => simp
    | cons c cs =>
      have hc := h2 c rfl
      simp [List.takeWhile_cons, List.dropWhile_cons, hc]
  | cons a l ih =>
    intro l₂ h1 h2
    have ha := h1 a (by simp)
    have hrec := ih l₂ (fun c hc => h1 c (by simp [hc])) h2
    simp [List.takeWhile_cons, List.dropWhile_cons, ha, hrec.1, hrec.2]

theorem skipWs_cons_not_ws {c : Char} (cs : List Char) (h : isJsonWs c = false) :
    skipWs (c :: cs) = c :: cs := by
  simp [skipWs, List.dropWhile_cons, h]

theorem skipWs_cons_ws {c : Char} (cs : List Char) (h : isJsonWs c = true) :
    skipWs (c :: cs) = skipWs cs := by
  simp [skipWs, List.dropWhile_cons, h]

theorem parseJ_nat (m g : Nat) (rest : List Char)
    (hrest : ∀ c, rest.head? = some c → c.isDigit = false) :
    parseJ (g + 1) ((Nat.repr m).toList ++ rest) = some (.num (Int.ofNat m), rest) := by
  obtain ⟨c, cs, hdecomp⟩ : ∃ c cs, (Nat.repr m).toList = c :: cs := by
    cases h : (Nat.repr m).toList with
    | nil => exact absurd h (repr_ne_nil m)
    | cons c cs => exact ⟨c, cs, rfl⟩
  have hall : ∀ x ∈ (Nat.repr m).toList, x.isDigit = true := repr_digits m
  have hcdigit : c.isDigit = true := by
    refine hall c ?_
    rw [hdecomp]
    simp
  have hn := ne_of_isDigit c 'n' hcdigit (by decide)
  have ht := ne_of_isDigit c 't' hcdigit (by decide)
  have hf := ne_of_isDigit c 'f' hcdigit (by decide)
  have hq := ne_of_isDigit c '"' hcdigit (by decide)
  have hlb := ne_of_isDigit c '[' hcdigit (by decide)
  have hob := ne_of_isDigit c '\x7b' hcdigit (by decide)
  have hm := ne_of_isDigit c '-' hcdigit (by decide)
  have hsplit := takeWhile_all_append Char.isDigit (c :: cs) rest
    (by rw [← hdecomp]; exact hall) hrest
  rw [parseJ, hdecomp, List.cons_append,
    skipWs_cons_not_ws _ (isDigit_not_ws hcdigit)]
  simp only [if_neg hn, if_neg ht, if_neg hf, if_neg hq, if_neg hlb,
    if_neg hob, if_neg hm, if_pos hcdigit]
  rw [← List.cons_append, hsplit.1, hsplit.2, ← hdecomp, repr_val]
  rfl

theorem parseJ_int (n : Int) (g : Nat) (rest : List Char)
    (hrest : ∀ c, rest.head? = some c → c.isDigit = false) :
    parseJ (g + 1) ((toString n).toList ++ rest) = some (.num n, rest) := by
  cases n with
  | ofNat m => exact parseJ_nat m g rest hrest
  | negSucc m =>
    have hdata : (toString (Int.negSucc m)).toList =
        '-' :: (Nat.repr (m + 1)).toList := by
      show ("-" ++ Nat.repr (m + 1)).data = '-' :: (Nat.repr (m + 1)).data
      rw [String.data_append]
      rfl
    rw [hdata]
    obtain ⟨c, cs, hdecomp⟩ : ∃ c cs, (Nat.repr (m + 1)).toList = c :: cs := by
      cases h : (Nat.repr (m + 1)).toList with
      | nil => exact absurd h (repr_ne_nil (m + 1))
      | cons c cs => exact ⟨c, cs, rfl⟩
    have hall : ∀ x ∈ (Nat.repr (m + 1)).toList, x.isDigit = true :=
      repr_digits (m + 1)
    have hsplit := takeWhile_all_append Char.isDigit (Nat.repr (m + 1)).toList
      rest hall hrest
    rw [parseJ, List.cons_append, skipWs_cons_not_ws _ (by decide)]
    simp only [if_neg (by decide : ¬ ('-' : Char) = 'n'),
      if_neg (by decide : ¬ ('-' : Char) = 't'),
      if_neg (by decide : ¬ ('-' : Char) = 'f'),
      if_neg (by decide : ¬ ('-' : Char) = '"'),
      if_neg (by decide : ¬ ('-' : Char) = '['),
      if_neg (by decide : ¬ ('-' : Char) = '\x7b'),
      if_pos (rfl : ('-' : Char) = '-'), ite_true]
    rw [hsplit.1, hsplit.2, hdecomp]
    dsimp only
    rw [← hdecomp, repr_val]
    simp only [Option.some.injEq, Prod.mk.injEq, JVal.num.injEq, and_true]
    rw [Int.negSucc_eq]
    push_cast
    ring

theorem parseStrChars_escStr : ∀ (cs rest : List Char),
    parseStrChars (escStrChars cs ++ ('"' :: rest)) = some (cs, rest) := by
  intro cs
  induction cs with
  | nil =>
    intro rest
    rw [escStrChars, List.nil_append, parseStrChars.eq_def]
    simp
  | cons c cs ih =>
    intro rest
    rw [escStrChars, escapeChar]
    by_cases h1 : c = '"'
    · subst h1
      simp only [ite_true, if_pos]
      simp only [List.cons_append, List.nil_append]
      rw [parseStrChars.eq_def]
      simp [escChar, ih rest]
    · by_cases h2 : c = '\\'
      · subst h2
        simp only [if_neg (by decide : ¬ ('\\' : Char) = '"'), ite_true, if_pos]
        simp only [List.cons_append, List.nil_append]
        rw [parseStrChars.eq_def]
        simp [escChar, ih rest]
      · by_cases h3 : c = '\n'
        · subst h3
          simp only [if_neg (by decide : ¬ ('\n' : Char) = '"'),
            if_neg (by decide : ¬ ('\n' : Char) = '\\'), ite_true, if_pos]
          simp only [List.cons_append, List.nil_append]
          rw [parseStrChars.eq_def]
          simp [escChar, ih rest]
        · by_cases h4 : c = '\t'
          · subst h4
            simp only [if_neg (by decide : ¬ ('\t' : Char) = '"'),
              if_neg (by decide : ¬ ('\t' : Char) = '\\'),
              if_neg (by decide : ¬ ('\t' : Char) = '\n'), ite_true, if_pos]
            simp only [List.cons_append, List.nil_append]
            rw [parseStrChars.eq_def]
            simp [escChar, ih rest]
          · by_cases h5 : c = '\r'
            · subst h5
              simp only [if_neg (by decide : ¬ ('\r' : Char) = '"'),
                if_neg (by decide : ¬ ('\r' : Char) = '\\'),
                if_neg (by decide : ¬ ('\r' : Char) = '\n'),
                if_neg (by decide : ¬ ('\r' : Char) = '\t'), ite_true, if_pos]
              simp only [List.cons_append, List.nil_append]
              rw [parseStrChars.eq_def]
              simp [escChar, ih rest]
            · simp only [if_neg h1, if_neg h2, if_neg h3, if_neg h4, if_neg h5]
              rw [List.singleton_append, parseStrChars.eq_def]
              simp [h1, h2, ih rest]

mutual

/-- Fuel sufficient for `parseJ` to consume the serialization of a value. -/
def pfuel : JVal → Nat
  | .arr xs => 1 + pfuelItems xs
  | .obj fs => 1 + pfuelMembers fs
  | _ => 1

/-- Fuel sufficient for `parseArrItems`/`parseArrTail` on serialized items. -/
def pfuelItems : List JVal → Nat
  | [] => 1
  | x :: xs => 1 + max (pfuel x) (pfuelItems xs)

/-- Fuel sufficient for `parseObjItems`/`parseObjTail` on serialized
members. -/
def pfuelMembers : List (String × JVal) → Nat
  | [] => 1
  | (_, v) :: fs => 1 + max (1 + pfuel v) (pfuelMembers fs)

end

theorem string_mk_toList (s : String) : String.mk s.toList = s := rfl

theorem parseJ_ws (g : Nat) (c : Char) (hc : isJsonWs c = true) (cs : List Char) :
    parseJ g (c :: cs) = parseJ g cs := by
  cases g with
  | zero => rfl
  | succ g' =>
    simp only [parseJ.eq_def, skipWs_cons_ws _ hc]

theorem head_nondigit_cons {c : Char} (h : c.isDigit = false) (cs : List Char) :
    ∀ x, (c :: cs : List Char).head? = some x → x.isDigit = false := by
  intro x hx
  rw [List.head?_cons, Option.some.injEq] at hx
  rw [← hx]
  exact h

theorem sepTail_close_nondigit (ts : List (List Char)) (cl : Char)
    (hcl : cl.isDigit = false) (rest : List Char) :
    ∀ x, (sepTail ts ++ cl :: rest).head? = some x → x.isDigit = false := by
  cases ts with
  | nil =>
    rw [sepTail, List.nil_append]
    exact head_nondigit_cons hcl rest
  | cons t ts =>
    rw [sepTail, List.cons_append, List.cons_append]
    exact head_nondigit_cons (by decide) _

theorem dumpsL_head (v : JVal) : ∃ c cs, dumpsL v = c :: cs ∧
    isJsonWs c = false ∧ c ≠ ']' ∧ c ≠ '\x7d' := by
  cases v with
  | num n =>
    cases n with
    | ofNat m =>
      obtain ⟨c, cs, hdec⟩ : ∃ c cs, (Nat.repr m).toList = c :: cs := by
        cases h : (Nat.repr m).toList with
        | nil => exact absurd h (repr_ne_nil m)
        | cons c cs => exact ⟨c, cs, rfl⟩
      have hcd : c.isDigit = true := by
        refine repr_digits m c ?_
        rw [hdec]
        simp
      exact ⟨c, cs, hdec, isDigit_not_ws hcd,
        ne_of_isDigit c ']' hcd (by decide),
        ne_of_isDigit c '\x7d' hcd (by decide)⟩
    | negSucc m =>
      refine ⟨'-', (Nat.repr (m + 1)).toList, ?_, by decide⟩
      show ("-" ++ Nat.repr (m + 1)).data = '-' :: (Nat.repr (m + 1)).data
      rw [String.data_append]
      rfl
  | bool b =>
    cases b with
    | true => exact ⟨'t', _, rfl, by decide⟩
    | false => exact ⟨'f', _, rfl, by decide⟩
  | null => exact ⟨'n', _, rfl, by decide⟩
  | str s => exact ⟨'"', _, rfl, by decide⟩
  | arr xs => exact ⟨'[', _, rfl, by decide⟩
  | obj fs => exact ⟨'\x7b', _, rfl, by decide⟩

theorem pfuel_pos (v : JVal) : 1 ≤ pfuel v := by
  cases v <;> simp [pfuel]

theorem pfuelItems_pos (xs : List JVal) : 1 ≤ pfuelItems xs := by
  cases xs <;> simp [pfuelItems]

theorem pfuelMembers_pos (fs : List (String × JVal)) : 1 ≤ pfuelMembers fs := by
  cases fs with
  | nil => simp [pfuelMembers]
  | cons kv fs =>
    obtain ⟨k, v⟩ := kv
    rw [pfuelMembers]
    exact Nat.le_add_right 1 _

theorem parseJ_null (g : Nat) (rest : List Char) :
    parseJ (g + 1) (dumpsL .null ++ rest) = some (.null, rest) := rfl

theorem parseJ_true (g : Nat) (rest : List Char) :
    parseJ (g + 1) (dumpsL (.bool true) ++ rest) = some (.bool true, rest) := rfl

theorem parseJ_false (g : Nat) (rest : List Char) :
    parseJ (g + 1) (dumpsL (.bool false) ++ rest) = some (.bool false, rest) := rfl

theorem parseJ_str (g : Nat) (s : String) (rest : List Char) :
    parseJ (g + 1) (dumpsL (.str s) ++ rest) = some (.str s, rest) := by
  show parseJ (g + 1) (('"' :: (escStrChars s.toList ++ ['"'])) ++ rest) =
    some (.str s, rest)
  rw [List.cons_append, List.append_assoc, List.singleton_append,
    parseJ, skipWs_cons_not_ws _ (by decide)]
  simp only [if_neg (by decide : ¬ ('"' : Char) = 'n'),
    if_neg (by decide : ¬ ('"' : Char) = 't'),
    if_neg (by decide : ¬ ('"' : Char) = 'f'),
    if_pos (rfl : ('"' : Char) = '"'), ite_true]
  rw [parseStrChars_escStr]
  rfl

theorem parseObjPair_ws (g : Nat) (c : Char) (hc : isJsonWs c = true)
    (cs : List Char) : parseObjPair g (c :: cs) = parseObjPair g cs := by
  cases g with
  | zero => rfl
  | succ g' => simp only [parseObjPair.eq_def, skipWs_cons_ws _ hc]

theorem parse_dumpsL : ∀ g : Nat,
    (∀ (v : JVal) (rest : List Char), pfuel v ≤ g →
      (∀ c, rest.head? = some c → c.isDigit = false) →
      parseJ g (dumpsL v ++ rest) = some (v, rest)) ∧
    (∀ (xs : List JVal) (rest : List Char), pfuelItems xs ≤ g →
      parseArrItems g (sepJoin (dumpsLArr xs) ++ (']' :: rest)) =
        some (xs, rest)) ∧
    (∀ (xs : List JVal) (rest : List Char), pfuelItems xs ≤ g →
      parseArrTail g (sepTail (dumpsLArr xs) ++ (']' :: rest)) =
        some (xs, rest)) ∧
    (∀ (k : String) (v : JVal) (rest : List Char), 1 + pfuel v ≤ g →
      (∀ c, rest.head? = some c → c.isDigit = false) →
      parseObjPair g
        (('"' :: (escStrChars k.toList ++ ('"' :: ':' :: ' ' :: dumpsL v))) ++ rest) =
        some ((k, v), rest)) ∧
    (∀ (fs : List (String × JVal)) (rest : List Char), pfuelMembers fs ≤ g →
      parseObjItems g (sepJoin (dumpsLObj fs) ++ ('\x7d' :: rest)) =
        some (fs, rest)) ∧
    (∀ (fs : List (String × JVal)) (rest : List Char), pfuelMembers fs ≤ g →
      parseObjTail g (sepTail (dumpsLObj fs) ++ ('\x7d' :: rest)) =
        some (fs, rest)) := by
  intro g
  induction g with
  | zero =>
    refine ⟨?_, ?_, ?_, ?_, ?_, ?_⟩
    · intro v rest hg _
      have := pfuel_pos v
      omega
    · intro xs rest hg
      have := pfuelItems_pos xs
      omega
    · intro xs rest hg
      have := pfuelItems_pos xs
      omega
    · intro k v rest hg _
      omega
    · intro fs rest hg
      have := pfuelMembers_pos fs
      omega
    · intro fs rest hg
      have := pfuelMembers_pos fs
      omega
  | succ f ih =>
    obtain ⟨ihA, ihB, ihC, ihD, ihE, ihF⟩ := ih
    refine ⟨?_, ?_, ?_, ?_, ?_, ?_⟩
    · -- parseJ on a serialized value
      intro v rest hg hrest
      cases v with
      | null => exact parseJ_null f rest
      | bool b =>
        cases b with
        | true => exact parseJ_true f rest
        | false => exact parseJ_false f rest
      | num n => exact parseJ_int n f rest hrest
      | str s => exact parseJ_str f s rest
      | arr xs =>
        have hxs : pfuelItems xs ≤ f := by
          simp only [pfuel] at hg
          omega
        show parseJ (f + 1) (('[' :: (sepJoin (dumpsLArr xs) ++ [']'])) ++ rest) =
          some (.arr xs, rest)
        rw [List.cons_append, List.append_assoc, List.singleton_append,
          parseJ, skipWs_cons_not_ws _ (by decide)]
        simp only [if_neg (by decide : ¬ ('[' : Char) = 'n'),
          if_neg (by decide : ¬ ('[' : Char) = 't'),
          if_neg (by decide : ¬ ('[' : Char) = 'f'),
          if_neg (by decide : ¬ ('[' : Char) = '"'),
          if_pos (rfl : ('[' : Char) = '['), ite_true]
        rw [ihB xs rest hxs]
        rfl
      | obj fs =>
        have hfs : pfuelMembers fs ≤ f := by
          simp only [pfuel] at hg
          omega
        show parseJ (f + 1)
          (('\x7b' :: (sepJoin (dumpsLObj fs) ++ ['\x7d'])) ++ rest) =
          some (.obj fs, rest)
        rw [List.cons_append, List.append_assoc, List.singleton_append,
          parseJ, skipWs_cons_not_ws _ (by decide)]
        simp only [if_neg (by decide : ¬ ('\x7b' : Char) = 'n'),
          if_neg (by decide : ¬ ('\x7b' : Char) = 't'),
          if_neg (by decide : ¬ ('\x7b' : Char) = 'f'),
          if_neg (by decide : ¬ ('\x7b' : Char) = '"'),
          if_neg (by decide : ¬ ('\x7b' : Char) = '['),
          if_pos (rfl : ('\x7b' : Char) = '\x7b'), ite_true]
        rw [ihE fs rest hfs]
        rfl
    · -- parseArrItems on serialized items
      intro xs rest hxs
      cases xs with
      | nil => rfl
      | cons x xs' =>
        obtain ⟨c, cs, hdec, hws, hne1, _⟩ := dumpsL_head x
        have hx : pfuel x ≤ f := by
          simp only [pfuelItems] at hxs
          omega
        have hxs' : pfuelItems xs' ≤ f := by
          simp only [pfuelItems] at hxs
          omega
        show parseArrItems (f + 1)
          ((dumpsL x ++ sepTail (dumpsLArr xs')) ++ (']' :: rest)) =
          some (x :: xs', rest)
        rw [List.append_assoc, hdec, List.cons_append, parseArrItems,
          skipWs_cons_not_ws _ hws]
        simp only [if_neg hne1]
        rw [← List.cons_append, ← hdec,
          ihA x _ hx (sepTail_close_nondigit (dumpsLArr xs') ']' (by decide) rest)]
        simp only [Option.bind_eq_bind, Option.some_bind]
        rw [ihC xs' rest hxs']
        rfl
    · -- parseArrTail on serialized items
      intro xs rest hxs
      cases xs with
      | nil => rfl
      | cons x xs' =>
        have hx : pfuel x ≤ f := by
          simp only [pfuelItems] at hxs
          omega
        have hxs' : pfuelItems xs' ≤ f := by
          simp only [pfuelItems] at hxs
          omega
        show parseArrTail (f + 1)
          ((',' :: ' ' :: (dumpsL x ++ sepTail (dumpsLArr xs'))) ++ (']' :: rest)) =
          some (x :: xs', rest)
        rw [List.cons_append, List.cons_append, List.append_assoc, parseArrTail,
          skipWs_cons_not_ws _ (by decide)]
        simp only [if_neg (by decide : ¬ (',' : Char) = ']'),
          if_pos (rfl : (',' : Char) = ','), ite_true]
        rw [parseJ_ws f ' ' (by decide),
          ihA x _ hx (sepTail_close_nondigit (dumpsLArr xs') ']' (by decide) rest)]
        simp only [Option.bind_eq_bind, Option.some_bind]
        rw [ihC xs' rest hxs']
        rfl
    · -- parseObjPair on a serialized member
      intro k v rest hg hrest
      have hv : pfuel v ≤ f := by omega
      rw [List.cons_append, List.append_assoc, List.cons_append, List.cons_append,
        List.cons_append, parseObjPair, skipWs_cons_not_ws _ (by decide)]
      simp only [if_pos (rfl : ('"' : Char) = '"'), ite_true]
      rw [parseStrChars_escStr]
      simp only [Option.bind_eq_bind, Option.some_bind]
      rw [skipWs_cons_not_ws _ (by decide)]
      simp only [if_pos (rfl : (':' : Char) = ':'), ite_true]
      rw [parseJ_ws f ' ' (by decide), ihA v rest hv hrest]
      rfl
    · -- parseObjItems on serialized members
      intro fs rest hfs
      cases fs with
      | nil => rfl
      | cons kv fs' =>
        obtain ⟨k, v⟩ := kv
        have hv : 1 + pfuel v ≤ f := by
          simp only [pfuelMembers] at hfs
          omega
        have hfs' : pfuelMembers fs' ≤ f := by
          simp only [pfuelMembers] at hfs
          omega
        show parseObjItems (f + 1)
          ((('"' :: (escStrChars k.toList ++ ('"' :: ':' :: ' ' :: dumpsL v))) ++
            sepTail (dumpsLObj fs')) ++ ('\x7d' :: rest)) =
          some ((k, v) :: fs', rest)
        rw [List.append_assoc, List.cons_append, parseObjItems,
          skipWs_cons_not_ws _ (by decide)]
        simp only [if_neg (by decide : ¬ ('"' : Char) = '\x7d')]
        rw [← List.cons_append,
          ihD k v _ hv (sepTail_close_nondigit (dumpsLObj fs') '\x7d' (by decide) rest)]
        simp only [Option.bind_eq_bind, Option.some_bind]
        rw [ihF fs' rest hfs']
        rfl
    · -- parseObjTail on serialized members
      intro fs rest hfs
      cases fs with
      | nil => rfl
      | cons kv fs' =>
        obtain ⟨k, v⟩ := kv
        have hv : 1 + pfuel v ≤ f := by
          simp only [pfuelMembers] at hfs
          omega
        have hfs' : pfuelMembers fs' ≤ f := by
          simp only [pfuelMembers] at hfs
          omega
        show parseObjTail (f + 1)
          ((',' :: ' ' :: (('"' :: (escStrChars k.toList ++
            ('"' :: ':' :: ' ' :: dumpsL v))) ++ sepTail (dumpsLObj fs'))) ++
            ('\x7d' :: rest)) = some ((k, v) :: fs', rest)
        rw [List.cons_append, List.cons_append, List.append_assoc, parseObjTail,
          skipWs_cons_not_ws _ (by decide)]
        simp only [if_neg (by decide : ¬ (',' : Char) = '\x7d'),
          if_pos (rfl : (',' : Char) = ','), ite_true]
        rw [parseObjPair_ws f ' ' (by decide),
          ihD k v _ hv (sepTail_close_nondigit (dumpsLObj fs') '\x7d' (by decide) rest)]
        simp only [Option.bind_eq_bind, Option.some_bind]
        rw [ihF fs' rest hfs']
        rfl

theorem dumpsL_length_pos (v : JVal) : 1 ≤ (dumpsL v).length := by
  obtain ⟨c, cs, hdec, -, -, -⟩ := dumpsL_head v
  rw [hdec]
  simp

mutual

theorem pfuel_le : ∀ v : JVal, pfuel v ≤ (dumpsL v).length
  | .null => by simp [pfuel, dumpsL]
  | .bool b => by cases b <;> simp [pfuel, dumpsL]
  | .num n => by
      have := dumpsL_length_pos (.num n)
      simp only [pfuel]
      omega
  | .str s => by
      have := dumpsL_length_pos (.str s)
      simp only [pfuel]
      omega
  | .arr xs => by
      have h := pfuelItems_le_join xs
      simp only [pfuel, dumpsL, List.length_cons, List.length_append,
        List.length_singleton]
      omega
  | .obj fs => by
      have h := pfuelMembers_le_join fs
      simp only [pfuel, dumpsL, List.length_cons, List.length_append,
        List.length_singleton]
      omega

theorem pfuelItems_le_join : ∀ xs : List JVal,
    pfuelItems xs ≤ (sepJoin (dumpsLArr xs)).length + 1
  | [] => by simp [pfuelItems, dumpsLArr, sepJoin]
  | x :: xs => by
      have h1 := pfuel_le x
      have h2 := pfuelItems_le_tail xs
      have h3 := dumpsL_length_pos x
      simp only [pfuelItems, dumpsLArr, sepJoin, List.length_append]
      omega

theorem pfuelItems_le_tail : ∀ xs : List JVal,
    pfuelItems xs ≤ (sepTail (dumpsLArr xs)).length + 1
  | [] => by simp [pfuelItems, dumpsLArr, sepTail]
  | x :: xs => by
      have h1 := pfuel_le x
      have h2 := pfuelItems_le_tail xs
      have h3 := dumpsL_length_pos x
      simp only [pfuelItems, dumpsLArr, sepTail, List.length_cons,
        List.length_append]
      omega

theorem pfuelMembers_le_join : ∀ fs : List (String × JVal),
    pfuelMembers fs ≤ (sepJoin (dumpsLObj fs)).length + 1
  | [] => by simp [pfuelMembers, dumpsLObj, sepJoin]
  | (k, v) :: fs => by
      have h1 := pfuel_le v
      have h2 := pfuelMembers_le_tail fs
      simp only [pfuelMembers, dumpsLObj, sepJoin, List.length_cons,
        List.length_append]
      omega

theorem pfuelMembers_le_tail : ∀ fs : List (String × JVal),
    pfuelMembers fs ≤ (sepTail (dumpsLObj fs)).length + 1
  | [] => by simp [pfuelMembers, dumpsLObj, sepTail]
  | (k, v) :: fs => by
      have h1 := pfuel_le v
      have h2 := pfuelMembers_le_tail fs
      simp only [pfuelMembers, dumpsLObj, sepTail, List.length_cons,
        List.length_append]
      omega

end

/-- The modelled `json.loads` inverts the modelled `json.dumps` on every
modelled JSON value. -/
theorem loads_dumps (v : JVal) : loads (dumps v) = some v := by
  have hf : pfuel v ≤ (dumps v).length + 1 := by
    have h1 := pfuel_le v
    have h2 : (dumps v).length = (dumpsL v).length := rfl
    omega
  have h := (parse_dumpsL ((dumps v).length + 1)).1 v [] hf
    (by intro c hc; simp at hc)
  rw [List.append_nil] at h
  have htl : (dumps v).toList = dumpsL v := rfl
  rw [loads, htl, h]
  rfl

/-- C6: for a canonical assistant message carrying tool calls, converting
to each adapter's vendor format and normalizing the corresponding vendor
response shape back reproduces the same tool calls — identical id, name and
arguments, in the same order: Anthropic re-reads its `tool_use` blocks
verbatim, OpenAI deserializes the `json.dumps`-serialized arguments it
wrote (using `loads_dumps`, the round trip proved for every modelled JSON
value), and Ollama transmits canonical messages unchanged. -/
theorem roundTrip_spec (msg : HMsg) (tcs : List ToolCall)
    (hrole : msg.role = "assistant") (htcs : msg.tool_calls = some tcs)
    (hne : tcs ≠ []) :
    (∃ blocks, (anthropicConvertMessages [msg]).2 =
        [{ role := "assistant", content := .blocks blocks }] ∧
      (anthropicNormalize blocks).tool_calls = tcs) ∧
    (openaiNormalize (oaRespOfConverted (openaiConvertMsg msg))).tool_calls = tcs ∧
    ollamaConvertMessages [msg] = [msg] := by
  have htruthy : toolCallsTruthy msg = true := by
    cases tcs with
    | nil => exact absurd rfl hne
    | cons t ts => simp [toolCallsTruthy, htcs]
  have hnotSys : ¬ msg.role = "system" := by rw [hrole]; decide
  have hnotTool : ¬ msg.role = "tool" := by rw [hrole]; decide
  refine ⟨?_, ?_, rfl⟩
  · refine ⟨(if contentTruthy msg then [ABlock.text (msg.content.getD "")] else [])
      ++ tcs.map (fun tc => ABlock.toolUse tc.id tc.name tc.arguments), ?_, ?_⟩
    · simp only [anthropicConvertMessages, anthropicConvertAux, if_neg hnotSys,
        if_neg hnotTool, if_pos (And.intro hrole htruthy), htcs, Option.getD_some]
    · by_cases hct : contentTruthy msg
      · simp only [hct, if_pos, ite_true,  List.singleton_append,
          anthropicNormalize_text_cons, normalize_toolUse_map]
      · simp [hct, normalize_toolUse_map]
  · simp only [openaiConvertMsg, if_pos (And.intro hrole htruthy), htcs,
      Option.getD_some, oaRespOfConverted, openaiNormalize]
    cases tcs with
    | nil => exact absurd rfl hne
    | cons t ts =>
      simp only [List.map_cons, ne_eq, reduceCtorEq, not_false_eq_true, if_pos,
        ite_true, ← List.map_cons]
      exact map_deser_ser (t :: ts) (fun tc _ => loads_dumps tc.arguments)

/-- Witness for `roundTrip_spec` at a concrete two-argument tool call. -/
theorem roundTrip_spec_witness :
    (openaiNormalize (oaRespOfConverted (openaiConvertMsg
      { role := "assistant",
        tool_calls := some [{ name := "send_code",
                              arguments := .obj [("a", .num 1), ("b", .num 2)],
                              id := "call_1" }] }))).tool_calls =
      [{ name := "send_code", arguments := .obj [("a", .num 1), ("b", .num 2)],
         id := "call_1" }] :=
  (roundTrip_spec _ _ rfl rfl (by decide)).2.1

theorem anthropicRun_frags_stop (frags : List String) :
    ∀ s : AState, s.currentToolName ≠ "" →
      anthropicRun s (frags.map AEvent.inputJsonDelta ++ [AEvent.blockStop]) =
        .ok ([{ content := "",
                tool_calls := [{ name := s.currentToolName,
                                 arguments := finalizeArgs (s.toolJsonBuf ++ concatStrs frags),
                                 id := s.currentToolId }],
                done := false }],
          { s with currentToolName := "", toolJsonBuf := "" }) := by
  induction frags with
  | nil =>
    intro s hname
    simp only [List.map_nil, List.nil_append, anthropicRun, anthropicHandle,
      ne_eq, hname, not_false_eq_true, if_pos, ite_true, concatStrs,
      String.append_empty, List.append_nil]
  | cons f fs ih =>
    intro s hname
    simp only [List.map_cons, List.cons_append, anthropicRun, anthropicHandle,
      List.append_eq]
    rw [ih { s with toolJsonBuf := s.toolJsonBuf ++ f } hname]
    simp [concatStrs, String.append_assoc]

theorem anthropicRun_frags (frags : List String) :
    ∀ s : AState,
      anthropicRun s (frags.map AEvent.inputJsonDelta) =
        .ok ([], { s with toolJsonBuf := s.toolJsonBuf ++ concatStrs frags }) := by
  induction frags with
  | nil =>
    intro s
    simp only [List.map_nil, anthropicRun, concatStrs, String.append_empty]
  | cons f fs ih =>
    intro s
    simp only [List.map_cons, anthropicRun, anthropicHandle, List.append_eq]
    rw [ih { s with toolJsonBuf := s.toolJsonBuf ++ f }]
    simp [concatStrs, String.append_assoc]

theorem applyToolDelta_frag (idx : Nat) (b : OBuf) (f : String) :
    applyToolDelta [(idx, b)] { index := idx, fargs := f } =
      [(idx, { b with args := b.args ++ f })] := by
  by_cases hf : f = ""
  · subst hf
    simp [applyToolDelta, bufContains, String.append_empty]
  · simp [applyToolDelta, bufContains, bufUpdate, hf]

theorem openaiRun_frags_finish (frags : List String) :
    ∀ (s : OState) (idx : Nat) (b : OBuf), s.buf = [(idx, b)] →
      openaiRun s (frags.map (oFragEvent idx) ++ [oFinishEvent]) =
        ([{ content := "",
            tool_calls := [{ name := b.name,
                             arguments := finalizeArgs (b.args ++ concatStrs frags),
                             id := b.id }],
            done := false },
          { content := "", done := true, prompt_eval_count := s.inputTokens,
            eval_count := s.outputTokens }],
         { s with buf := [] }) := by
  induction frags with
  | nil =>
    intro s idx b hbuf
    simp only [List.map_nil, List.nil_append, openaiRun, openaiHandle,
      oFinishEvent, hbuf, concatStrs, String.append_empty]
    simp [sortByKey, insertByKey]
  | cons f fs ih =>
    intro s idx b hbuf
    simp only [List.map_cons, List.cons_append, openaiRun, openaiHandle,
      oFragEvent, hbuf, List.foldl_cons, List.foldl_nil, applyToolDelta_frag,
      List.append_eq, ne_eq, not_true_eq_false, ite_false, if_neg,
      not_false_eq_true]
    rw [ih { s with buf := [(idx, { b with args := b.args ++ f })] } idx
      { b with args := b.args ++ f } rfl]
    simp [concatStrs, String.append_assoc]

theorem openaiRun_frags (frags : List String) :
    ∀ (s : OState) (idx : Nat) (b : OBuf), s.buf = [(idx, b)] →
      openaiRun s (frags.map (oFragEvent idx)) =
        ([], { s with buf := [(idx, { b with args := b.args ++ concatStrs frags })] }) := by
  induction frags with
  | nil =>
    intro s idx b hbuf
    simp only [List.map_nil, openaiRun, concatStrs, String.append_empty, ← hbuf]
  | cons f fs ih =>
    intro s idx b hbuf
    simp only [List.map_cons, openaiRun, openaiHandle, oFragEvent, hbuf,
      List.foldl_cons, List.foldl_nil, applyToolDelta_frag, ne_eq,
      not_true_eq_false, ite_false, if_neg, not_false_eq_true]
    rw [ih { s with buf := [(idx, { b with args := b.args ++ f })] } idx
      { b with args := b.args ++ f } rfl]
    simp [concatStrs, String.append_assoc]

/-- C4: on the adapters that stream tool-argument fragments, the fragments
are concatenated in arrival order and parsed as one JSON object exactly when
the invocation-ended event fires (Anthropic `content_block_stop`, OpenAI
`finish_reason`): before that event no tool-call chunk is surfaced, at that
event exactly one chunk carries the ToolCall whose arguments are the parse
of the concatenated buffer, a buffer that is not valid JSON yields the empty
mapping `{}` instead of an error, and the example fragments
`["{\"a\":1", ",\"b\":2}"]` parse to `{"a": 1, "b": 2}` while `"{not json"`
yields `{}`. -/
theorem toolArgsAccum_spec (sA : AState) (sO : OState) (hbuf : sO.buf = [])
    (idx : Nat) (name id : String) (hname : name ≠ "") (frags : List String) :
    (anthropicRun sA
        (AEvent.blockStartToolUse name id :: frags.map AEvent.inputJsonDelta) =
      .ok ([], { sA with
                  currentToolName := name
                  currentToolId := id
                  toolJsonBuf := concatStrs frags })) ∧
    (anthropicRun sA
        (AEvent.blockStartToolUse name id ::
          (frags.map AEvent.inputJsonDelta ++ [AEvent.blockStop])) =
      .ok ([{ content := "",
              tool_calls := [{ name := name,
                               arguments := finalizeArgs (concatStrs frags),
                               id := id }],
              done := false }],
        { sA with
            currentToolName := ""
            currentToolId := id
            toolJsonBuf := "" })) ∧
    (openaiRun sO (oStartEvent idx id name :: frags.map (oFragEvent idx)) =
      ([], { sO with
              buf := [(idx, { id := id, name := name, args := concatStrs frags })] })) ∧
    (openaiRun sO
        (oStartEvent idx id name :: (frags.map (oFragEvent idx) ++ [oFinishEvent])) =
      ([{ content := "",
          tool_calls := [{ name := name,
                           arguments := finalizeArgs (concatStrs frags),
                           id := id }],
          done := false },
        { content := "", done := true, prompt_eval_count := sO.inputTokens,
          eval_count := sO.outputTokens }],
       { sO with buf := [] })) ∧
    (∀ buf : String, finalizeArgs buf =
      if buf = "" then .obj [] else (loads buf).getD (.obj [])) ∧
    finalizeArgs (concatStrs ["\x7b\"a\":1", ",\"b\":2\x7d"]) =
      .obj [("a", .num 1), ("b", .num 2)] ∧
    finalizeArgs "\x7bnot json" = .obj [] := by
  have hstartA : anthropicHandle sA (.blockStartToolUse name id) =
      .ok ({ sA with
              currentToolName := name
              currentToolId := id
              toolJsonBuf := "" }, []) := rfl
  have hstartO : openaiHandle sO (oStartEvent idx id name) =
      ({ sO with buf := [(idx, { id := id, name := name, args := "" })] }, []) := by
    simp [openaiHandle, oStartEvent, applyToolDelta, bufContains, bufUpdate,
      hbuf, hname]
  refine ⟨?_, ?_, ?_, ?_, fun _ => rfl, by decide, by decide⟩
  · rw [anthropicRun, hstartA]
    dsimp only
    rw [anthropicRun_frags frags
      { sA with currentToolName := name, currentToolId := id, toolJsonBuf := "" }]
    simp [String.empty_append]
  · rw [anthropicRun, hstartA]
    dsimp only
    rw [anthropicRun_frags_stop frags
      { sA with currentToolName := name, currentToolId := id, toolJsonBuf := "" }
      (by simpa using hname)]
    simp [String.empty_append]
  · rw [openaiRun, hstartO]
    dsimp only
    rw [openaiRun_frags frags
      { sO with buf := [(idx, { id := id, name := name, args := "" })] }
      idx { id := id, name := name, args := "" } rfl]
    simp [String.empty_append]
  · rw [openaiRun, hstartO]
    dsimp only
    rw [openaiRun_frags_finish frags
      { sO with buf := [(idx, { id := id, name := name, args := "" })] }
      idx { id := id, name := name, args := "" } rfl]
    simp [String.empty_append]

/-- Witness for `toolArgsAccum_spec`: the spec's example fragments streamed
through the OpenAI decoder surface `{"a": 1, "b": 2}` exactly at the finish
event. -/
theorem toolArgsAccum_spec_witness :
    openaiRun {} (oStartEvent 0 "call_9" "send_code" ::
        (["\x7b\"a\":1", ",\"b\":2\x7d"].map (oFragEvent 0) ++ [oFinishEvent])) =
      ([{ content := "",
          tool_calls := [{ name := "send_code",
                           arguments := .obj [("a", .num 1), ("b", .num 2)],
                           id := "call_9" }],
          done := false },
        { content := "", done := true, prompt_eval_count := 0,
          eval_count := 0 }],
       ({} : OState)) := by
  have h := (toolArgsAccum_spec {} {} rfl 0 "send_code" "call_9" (by decide)
    ["\x7b\"a\":1", ",\"b\":2\x7d"]).2.2.2.1
  simpa using h

theorem sseData_skip (bad : String)
    (hbad : bad = "" ∨ ¬ bad.startsWith "data: " ∨
      (loads (bad.drop 6) = none ∧ (bad.drop 6).trim ≠ "[DONE]")) :
    ∀ pre post : List String,
      sseData (pre ++ bad :: post) = sseData (pre ++ post) := by
  intro pre
  induction pre with
  | nil =>
    intro post
    simp only [List.nil_append]
    rw [sseData]
    by_cases he : bad = ""
    · simp [he]
    · simp only [if_neg he]
      by_cases hsw : bad.startsWith "data: "
      · rcases hbad with h | h | ⟨h1, h2⟩
        · exact absurd h he
        · exact absurd hsw h
        · simp [hsw, h1, h2]
      · simp [hsw]
  | cons l ls ih =>
    intro post
    simp only [List.cons_append]
    rw [sseData, sseData]
    by_cases he : l = ""
    · simp only [he, ite_true, if_pos]
      exact ih post
    · simp only [if_neg he]
      by_cases hsw : l.startsWith "data: "
      · simp only [hsw, not_true_eq_false, ite_false, if_neg]
        by_cases hdone : (l.drop 6).trim = "[DONE]"
        · simp [hdone]
        · simp only [if_neg hdone]
          cases hl : loads (l.drop 6) with
          | none => exact ih post
          | some j => rw [ih post]
      · simp only [hsw, not_false_eq_true, ite_true, if_pos]
        exact ih post

theorem ollamaRun_skip_empty :
    ∀ lpre lpost, ollamaRun (lpre ++ "" :: lpost) = ollamaRun (lpre ++ lpost) := by
  intro lpre
  induction lpre with
  | nil =>
    intro lpost
    simp only [List.nil_append]
    rw [ollamaRun]
    simp
  | cons l ls ih =>
    intro lpost
    simp only [List.cons_append]
    rw [ollamaRun, ollamaRun]
    by_cases he : l = ""
    · simp only [he, ite_true, if_pos]
      exact ih lpost
    · simp only [if_neg he]
      cases hl : loads l with
      | none => rfl
      | some j => rw [ih lpost]

/-- C9 (amended): for the two SSE decoders (Anthropic, OpenAI), an
individual stream line that is empty, lacks the `"data: "` prefix
(heartbeats), or whose payload is not valid JSON (and is not the `[DONE]`
sentinel, which deliberately ends the stream) is skipped, never fails the
call, and leaves the chunks decoded from every other line unchanged.  The
Ollama decoder, however, skips only *empty* lines: its `json.loads(line)`
is unguarded, so a non-JSON line raises `json.JSONDecodeError`, aborting
the stream (chunks from well-formed lines after it are lost). -/
theorem streamLineSkip_spec (bad : String) (pre post : List String)
    (hbad : bad = "" ∨ ¬ bad.startsWith "data: " ∨
      (loads (bad.drop 6) = none ∧ (bad.drop 6).trim ≠ "[DONE]")) :
    sseData (pre ++ bad :: post) = sseData (pre ++ post) ∧
    anthropicChunksOfLines (pre ++ bad :: post) =
      anthropicChunksOfLines (pre ++ post) ∧
    openaiChunksOfLines (pre ++ bad :: post) = openaiChunksOfLines (pre ++ post) ∧
    (∀ lpre lpost : List String,
      ollamaRun (lpre ++ "" :: lpost) = ollamaRun (lpre ++ lpost)) ∧
    (∀ l, l ≠ "" → loads l = none → ∀ ls,
      ollamaRun (l :: ls) = ([], some ("json.JSONDecodeError: " ++ l))) := by
  have hsse := sseData_skip bad hbad pre post
  refine ⟨hsse, ?_, ?_, ollamaRun_skip_empty, ?_⟩
  · simp [anthropicChunksOfLines, hsse]
  · simp [openaiChunksOfLines, hsse]
  · intro l hl hload ls
    rw [ollamaRun]
    simp [hl, hload]

/-- C9 counterexample: a non-JSON line in an Ollama stream raises
`json.JSONDecodeError` (the claim says it is skipped); the well-formed
`done` chunk after it is never yielded. -/
theorem ollamaNonJson_counterexample :
    ollamaRun ["\x7b\"x\": 1\x7d", "not json", "\x7b\"done\": true\x7d"] =
      ([.obj [("x", .num 1)]], some "json.JSONDecodeError: not json") := by
  decide

/-- Witness for `streamLineSkip_spec`: an empty keep-alive line between two
data lines does not change the decoded SSE payloads. -/
theorem streamLineSkip_spec_witness :
    sseData (["data: \x7b\"type\": \"ping\"\x7d"] ++ "" ::
        ["data: \x7b\"type\": \"message_stop\"\x7d"]) =
      sseData (["data: \x7b\"type\": \"ping\"\x7d"] ++
        ["data: \x7b\"type\": \"message_stop\"\x7d"]) :=
  (streamLineSkip_spec "" ["data: \x7b\"type\": \"ping\"\x7d"]
    ["data: \x7b\"type\": \"message_stop\"\x7d"]
    (Or.inl rfl)).1

/-- Anthropic events that neither raise (`error`) nor terminate
(`message_stop`) the logical stream. -/
def aEventKindOk : AEvent → Bool
  | .error _ _ => false
  | .messageStop => false
  | _ => true

/-- A stream segment with no error event and no `message_stop`. -/
def aCleanSeg (es : List AEvent) : Bool := es.all aEventKindOk

/-- An OpenAI chunk with no truthy finish reason. -/
def oEventNoFinish (e : OEvent) : Bool :=
  match e.choice with
  | none => true
  | some ch => ch.finish == ""

/-- A stream segment with no finish reason. -/
def oCleanSeg (es : List OEvent) : Bool := es.all oEventNoFinish

theorem anthropicHandle_clean (s : AState) (e : AEvent)
    (hok : aEventKindOk e = true) :
    ∃ s₁ cs₁, anthropicHandle s e = .ok (s₁, cs₁) ∧
      ∀ c ∈ cs₁, c.done = false ∧ c.prompt_eval_count = 0 ∧ c.eval_count = 0 := by
  cases e with
  | error t m => simp [aEventKindOk] at hok
  | messageStop => simp [aEventKindOk] at hok
  | messageStart a b c => exact ⟨_, [], rfl, by simp⟩
  | blockStartToolUse n i => exact ⟨_, [], rfl, by simp⟩
  | blockStartOther => exact ⟨_, [], rfl, by simp⟩
  | textDelta t =>
      exact ⟨s, [{ content := t, done := false }], rfl, by simp⟩
  | inputJsonDelta p => exact ⟨_, [], rfl, by simp⟩
  | blockStop =>
      by_cases hn : s.currentToolName ≠ ""
      · exact ⟨{ s with currentToolName := "", toolJsonBuf := "" },
          [{ content := "",
             tool_calls := [{ name := s.currentToolName,
                              arguments := finalizeArgs s.toolJsonBuf,
                              id := s.currentToolId }],
             done := false }],
          by simp [anthropicHandle, hn], by simp⟩
      · exact ⟨s, [], by simp [anthropicHandle, hn], by simp⟩
  | messageDelta o => exact ⟨_, [], rfl, by simp⟩
  | other => exact ⟨_, [], rfl, by simp⟩

theorem anthropicRun_clean :
    ∀ (es : List AEvent) (s : AState), aCleanSeg es = true →
      ∃ cs s', anthropicRun s es = .ok (cs, s') ∧
        ∀ c ∈ cs, c.done = false ∧ c.prompt_eval_count = 0 ∧ c.eval_count = 0 := by
  intro es
  induction es with
  | nil => intro s _; exact ⟨[], s, rfl, by simp⟩
  | cons e es ih =>
    intro s hclean
    rw [aCleanSeg, List.all_cons, Bool.and_eq_true] at hclean
    obtain ⟨hok, hrest⟩ := hclean
    obtain ⟨s₁, cs₁, hhandle, hcs₁⟩ := anthropicHandle_clean s e hok
    obtain ⟨cs, s', hrun, hcs⟩ := ih s₁ hrest
    refine ⟨cs₁ ++ cs, s', ?_, ?_⟩
    · rw [anthropicRun, hhandle]
      dsimp only
      rw [hrun]
    · intro c hc
      rcases List.mem_append.mp hc with h | h
      · exact hcs₁ c h
      · exact hcs c h

theorem anthropicRun_append_ok :
    ∀ (es₁ : List AEvent) (s s' : AState) (cs : List Chunk),
      anthropicRun s es₁ = .ok (cs, s') → ∀ es₂,
      anthropicRun s (es₁ ++ es₂) =
        match anthropicRun s' es₂ with
        | .error e => .error e
        | .ok (cs₂, s₂) => .ok (cs ++ cs₂, s₂) := by
  intro es₁
  induction es₁ with
  | nil =>
    intro s s' cs h es₂
    rw [anthropicRun] at h
    injection h with h
    injection h with h1 h2
    subst h1; subst h2
    rw [List.nil_append]
    cases anthropicRun s es₂ with
    | error e => rfl
    | ok p => simp
  | cons e es ih =>
    intro s s' cs h es₂
    rw [anthropicRun] at h
    rw [List.cons_append, anthropicRun]
    cases hh : anthropicHandle s e with
    | error err => rw [hh] at h; exact absurd h (by simp)
    | ok p =>
      obtain ⟨s₁, cs₁⟩ := p
      rw [hh] at h
      dsimp only at h ⊢
      cases hr : anthropicRun s₁ es with
      | error err => rw [hr] at h; exact absurd h (by simp)
      | ok q =>
        obtain ⟨rest, sEnd⟩ := q
        rw [hr] at h
        dsimp only at h
        injection h with h
        injection h with h1 h2
        subst h2
        rw [ih s₁ sEnd rest hr es₂]
        cases hA : anthropicRun sEnd es₂ with
        | error e2 => rfl
        | ok p₂ =>
          obtain ⟨cs₂, s₂⟩ := p₂
          dsimp only
          simp [← h1, List.append_assoc]

theorem openaiHandle_clean (s : OState) (e : OEvent)
    (hok : oEventNoFinish e = true) :
    ∀ c ∈ (openaiHandle s e).2,
      c.done = false ∧ c.prompt_eval_count = 0 ∧ c.eval_count = 0 := by
  obtain ⟨usage, choice⟩ := e
  cases choice with
  | none => simp [openaiHandle]
  | some ch =>
    rw [oEventNoFinish] at hok
    simp only [beq_iff_eq] at hok
    rw [openaiHandle]
    simp only [hok, ne_eq, not_true_eq_false, ite_false, if_neg]
    by_cases hcont : ch.content ≠ ""
    · simp [hcont]
    · simp [hcont]

theorem openaiRun_clean :
    ∀ (es : List OEvent) (s : OState), oCleanSeg es = true →
      ∀ c ∈ (openaiRun s es).1,
        c.done = false ∧ c.prompt_eval_count = 0 ∧ c.eval_count = 0 := by
  intro es
  induction es with
  | nil => intro s _; simp [openaiRun]
  | cons e es ih =>
    intro s hclean
    rw [oCleanSeg, List.all_cons, Bool.and_eq_true] at hclean
    obtain ⟨hok, hrest⟩ := hclean
    intro c hc
    rw [openaiRun] at hc
    dsimp only at hc
    rcases List.mem_append.mp hc with h | h
    · exact openaiHandle_clean s e hok c h
    · exact ih (openaiHandle s e).1 hrest c h

theorem openaiRun_append :
    ∀ (es₁ : List OEvent) (s : OState) (es₂ : List OEvent),
      openaiRun s (es₁ ++ es₂) =
        ((openaiRun s es₁).1 ++ (openaiRun (openaiRun s es₁).2 es₂).1,
          (openaiRun (openaiRun s es₁).2 es₂).2) := by
  intro es₁
  induction es₁ with
  | nil => intro s es₂; simp [openaiRun]
  | cons e es ih =>
    intro s es₂
    rw [List.cons_append, openaiRun, openaiRun]
    dsimp only
    rw [ih (openaiHandle s e).1 es₂]
    simp [List.append_assoc]

theorem openaiHandle_finish (s : OState) (e : OEvent) (ch : OChoice)
    (hch : e.choice = some ch) (hfin : ch.finish ≠ "") :
    ∃ cs s₂, openaiHandle s e =
      (s₂, cs ++ [{ content := "", done := true,
                    prompt_eval_count := s₂.inputTokens,
                    eval_count := s₂.outputTokens }]) ∧
      ∀ c ∈ cs, c.done = false ∧ c.prompt_eval_count = 0 ∧ c.eval_count = 0 := by
  obtain ⟨usage, choice⟩ := e
  simp only at hch
  subst hch
  rw [openaiHandle]
  dsimp only
  rw [if_pos hfin]
  generalize (match usage with
    | none => s
    | some u =>
        { s with
            inputTokens := u.promptTokens.getD s.inputTokens
            outputTokens := u.completionTokens.getD s.outputTokens } : OState) = s1
  refine ⟨(if ch.content ≠ "" then
      [{ content := ch.content, done := false }] else []) ++
      (if List.foldl applyToolDelta s1.buf ch.toolCalls ≠ [] then
        [{ content := ""
           tool_calls := (sortByKey (List.foldl applyToolDelta s1.buf ch.toolCalls)).map
             (fun kv => { name := kv.2.name, arguments := finalizeArgs kv.2.args,
                          id := kv.2.id })
           done := false }]
      else []),
    { s1 with buf := [] }, ?_, ?_⟩
  · simp [List.append_assoc]
  · intro c hc
    rcases List.mem_append.mp hc with h | h
    · by_cases hcont : ch.content ≠ ""
      · simp only [if_pos hcont] at h
        rcases List.mem_singleton.mp h with rfl
        simp
      · simp only [if_neg hcont] at h
        exact absurd h (List.not_mem_nil c)
    · by_cases hbuf : List.foldl applyToolDelta s1.buf ch.toolCalls ≠ []
      · simp only [if_pos hbuf] at h
        rcases List.mem_singleton.mp h with rfl
        simp
      · simp only [if_neg hbuf] at h
        exact absurd h (List.not_mem_nil c)

theorem openaiRun_singleton (s : OState) (e : OEvent) :
    openaiRun s [e] = ((openaiHandle s e).2, (openaiHandle s e).1) := by
  rw [openaiRun]
  dsimp only
  rw [openaiRun]
  simp

/-- C1: for one logical vendor stream — no in-stream error and the terminal
event (`message_stop` / truthy `finish_reason` / the `done` line) occurring
exactly once, at the end, as the vendor protocols prescribe — each adapter's
streaming decode yields exactly one chunk with `done = true`, as the last
element, and every earlier chunk carries zero (or absent, read back as zero)
`prompt_eval_count`/`eval_count` usage.  For Ollama the adapter forwards the
parsed vendor chunks verbatim (and in particular preserves the property the
vendor stream carries). -/
theorem doneOnce_spec (aes : List AEvent) (oes : List OEvent) (eLast : OEvent)
    (ch : OChoice) (lines : List String) (front : List JVal) (lastC : JVal)
    (hA : aCleanSeg aes = true)
    (hO : oCleanSeg oes = true)
    (hch : eLast.choice = some ch) (hfin : ch.finish ≠ "")
    (hL : ollamaRun lines = (front ++ [lastC], none))
    (hLdone : jDone lastC = true)
    (hLfront : ∀ c ∈ front,
      jDone c = false ∧ jPromptEval c = 0 ∧ jEvalCount c = 0) :
    (∃ cs sEnd, anthropicRun {} (aes ++ [AEvent.messageStop]) =
        .ok (cs ++ [{ content := "", done := true,
                      prompt_eval_count := sEnd.inputTokens,
                      eval_count := sEnd.outputTokens,
                      cache_read_input_tokens := sEnd.cacheRead,
                      cache_creation_input_tokens := sEnd.cacheCreation }], sEnd) ∧
      ∀ c ∈ cs, c.done = false ∧ c.prompt_eval_count = 0 ∧ c.eval_count = 0) ∧
    (∃ cs s₂, openaiRun {} (oes ++ [eLast]) =
        (cs ++ [{ content := "", done := true,
                  prompt_eval_count := s₂.inputTokens,
                  eval_count := s₂.outputTokens }], s₂) ∧
      ∀ c ∈ cs, c.done = false ∧ c.prompt_eval_count = 0 ∧ c.eval_count = 0) ∧
    ((ollamaRun lines).1 = front ++ [lastC] ∧ (ollamaRun lines).2 = none ∧
      jDone lastC = true ∧
      ∀ c ∈ front, jDone c = false ∧ jPromptEval c = 0 ∧ jEvalCount c = 0) := by
  refine ⟨?_, ?_, ?_⟩
  · obtain ⟨cs, s', hrun, hclean⟩ := anthropicRun_clean aes {} hA
    refine ⟨cs, s', ?_, hclean⟩
    rw [anthropicRun_append_ok aes {} s' cs hrun [AEvent.messageStop]]
    rfl
  · obtain ⟨csF, s₂, hhandle, hcleanF⟩ :=
      openaiHandle_finish (openaiRun {} oes).2 eLast ch hch hfin
    refine ⟨(openaiRun {} oes).1 ++ csF, s₂, ?_, ?_⟩
    · rw [openaiRun_append oes {} [eLast], openaiRun_singleton, hhandle]
      simp [List.append_assoc]
    · intro c hc
      rcases List.mem_append.mp hc with h | h
      · exact openaiRun_clean oes {} hO c h
      · exact hcleanF c h
  · exact ⟨by rw [hL], by rw [hL], hLdone, hLfront⟩

/-- Witness for `doneOnce_spec` on concrete three-adapter streams: a text
delta before a `message_stop`, a content chunk before a finish chunk, and a
two-line Ollama stream ending in a `done` chunk. -/
theorem doneOnce_spec_witness :
    ∃ cs sEnd, anthropicRun {}
        ([AEvent.messageStart 5 0 0, AEvent.textDelta "hi",
          AEvent.messageDelta (some 7)] ++ [AEvent.messageStop]) =
      .ok (cs ++ [{ content := "", done := true,
                    prompt_eval_count := sEnd.inputTokens,
                    eval_count := sEnd.outputTokens,
                    cache_read_input_tokens := sEnd.cacheRead,
                    cache_creation_input_tokens := sEnd.cacheCreation }], sEnd) ∧
      ∀ c ∈ cs, c.done = false ∧ c.prompt_eval_count = 0 ∧ c.eval_count = 0 :=
  (doneOnce_spec [AEvent.messageStart 5 0 0, AEvent.textDelta "hi",
      AEvent.messageDelta (some 7)]
    [{ choice := some { content := "hi" } }]
    { usage := some { promptTokens := some 3, completionTokens := some 4 },
      choice := some { finish := "stop" } }
    { finish := "stop" }
    ["\x7b\"message\": \x7b\"content\": \"hi\"\x7d, \"done\": false\x7d",
     "\x7b\"done\": true, \"prompt_eval_count\": 3, \"eval_count\": 4\x7d"]
    [.obj [("message", .obj [("content", .str "hi")]), ("done", .bool false)]]
    (.obj [("done", .bool true), ("prompt_eval_count", .num 3),
           ("eval_count", .num 4)])
    (by decide) (by decide) rfl (by decide) (by decide) (by decide)
    (by
      intro c hc
      rw [List.mem_singleton] at hc
      subst hc
      exact ⟨rfl, rfl, rfl⟩)).1

